import Mathlib

/-!
Verification of the git-score scoring pipeline.

This file shallowly embeds the scoring and aggregation code of the
repository (src/lib/commit-analyzer.ts, src/lib/analysis/scoring.ts,
src/lib/openai-client.ts, the batched AI client, the collaboration
module and the grouping code of src/lib/analysis/analyzer.ts and
src/lib/temporal-analysis.ts) and proves or refutes the frozen claims
about it.

Modelling conventions:
- JavaScript strings are modelled as `List Char`; all characters that
  occur in the analysed commit data are ASCII, for which `Char.toLower`,
  `Char.isUpper` and `Char.isAlphanum` agree with the JavaScript
  behaviour of `toLowerCase`, `/^[A-Z]/` and `\w`.
- JavaScript numbers are modelled as `ℕ` / `ℤ` / `ℚ`.  Where the source
  computes `Math.round` of a weighted sum of small integers, the double
  computation is exact enough that it coincides with exact rational
  rounding (the exact value is never closer than 1/10 to a half-integer
  boundary while the floating error is below 1e-12); the integer
  formulas used below are proved equal to the exact rational rounding in
  the claim theorems.
- Fallible provider calls are modelled as `Except Unit` valued oracles;
  a JavaScript `Map` is modelled as an association list updated with
  replace-or-append semantics.
-/

namespace GitScore

/-- JavaScript `\s` and `trim` whitespace, restricted to the ASCII range. -/
def jsWs (c : Char) : Bool :=
  c = ' ' || c = '\t' || c = '\n' || c = '\r' || c = '\x0b' || c = '\x0c'

/-- JavaScript `\w` word characters: ASCII letters, digits and underscore. -/
def wordChar (c : Char) : Bool :=
  c.isAlphanum || c = '_'

/-- JavaScript `String.prototype.trim` (ASCII whitespace). -/
def trimChars (l : List Char) : List Char :=
  ((l.dropWhile jsWs).reverse.dropWhile jsWs).reverse

/-- Lowercase every character, as JavaScript `toLowerCase` does on ASCII. -/
def lowerChars (l : List Char) : List Char :=
  l.map Char.toLower

/-- Lowercase a whole string, as JavaScript `toLowerCase` does on ASCII. -/
def lowerStr (s : String) : String :=
  String.mk (lowerChars s.data)

/-- List version of `startsWith`, kernel-reducible. -/
def listStartsWith : List Char → List Char → Bool
  | _, [] => true
  | [], _ :: _ => false
  | c :: l, d :: p => c = d && listStartsWith l p

/-- String `startsWith`, via the underlying character lists. -/
def strStartsWith (s pre : String) : Bool :=
  listStartsWith s.data pre.data

/-- Whether `l` ends with the character `c`. -/
def endsWithChar (c : Char) (l : List Char) : Bool :=
  l.getLast? = some c

namespace CommitAnalyzer

/-!
Embedding of src/lib/commit-analyzer.ts.
-/

/-- `CONVENTIONAL_COMMIT_TYPES` of commit-analyzer.ts. -/
def conventionalCommitTypes : List (List Char) :=
  ["feat".data, "fix".data, "docs".data, "style".data, "refactor".data,
   "perf".data, "test".data, "build".data, "ci".data, "chore".data,
   "revert".data]

/-- `IMPERATIVE_VERBS` of commit-analyzer.ts. -/
def imperativeVerbs : List (List Char) :=
  ["add".data, "fix".data, "update".data, "remove".data, "delete".data,
   "change".data, "create".data, "implement".data, "refactor".data,
   "improve".data, "move".data, "rename".data, "merge".data,
   "revert".data, "bump".data, "release".data, "deploy".data,
   "configure".data, "enable".data, "disable".data, "set".data,
   "use".data, "apply".data, "clean".data, "optimize".data,
   "simplify".data, "extract".data, "convert".data, "replace".data,
   "handle".data, "support".data, "allow".data, "prevent".data,
   "ensure".data, "make".data, "init".data, "initialize".data,
   "introduce".data, "drop".data, "upgrade".data, "downgrade".data,
   "migrate".data, "integrate".data, "separate".data, "split".data,
   "combine".data, "consolidate".data]

/-- The first line of a commit message: characters before the first
newline, trimmed (`message.split('\n')[0].trim()`). -/
def firstLineOf (message : List Char) : List Char :=
  trimChars (message.takeWhile (fun c => c ≠ '\n'))

/-- Tail of the regex `^(\w+)(\(.+\))?!?:\s*.+` after the word and the
optional parenthesised group: an optional `!`, then `:`, then at least
one further character (`\s*.+` succeeds exactly on a nonempty rest,
since `.` also matches whitespace and the first line holds no newline). -/
def convTail : List Char → Bool
  | '!' :: ':' :: rest => !rest.isEmpty
  | ':' :: rest => !rest.isEmpty
  | _ => false

/-- Backtracking search for a `)` whose suffix satisfies `convTail`;
used for the greedy-with-backtracking group `(\(.+\))?`. -/
def scanForClose : List Char → Bool
  | [] => false
  | c :: rest => (c = ')' && convTail rest) || scanForClose rest

/-- Whether `firstLine.match(/^(\w+)(\(.+\))?!?:\s*.+/)` succeeds.  A
match forces the captured `\w+` to be the maximal word-character run at
the start of the line, after which either the optional group is absent
and `convTail` holds, or a `(`, at least one group character and a
closing `)` with a `convTail` suffix follow. -/
def convMatch (line : List Char) : Bool :=
  let w := line.takeWhile wordChar
  let rest := line.dropWhile wordChar
  !w.isEmpty &&
    (match rest with
     | '(' :: _ :: rest2 => scanForClose rest2
     | r => convTail r)

/-- Conventional-commit detection block of `analyzeMessageQuality`:
score, `isConventionalCommit` flag and detected `commitType`. -/
def conventionalScorePart (fl : List Char) : ℕ × Bool × Option (List Char) :=
  if convMatch fl then
    let ty := lowerChars (fl.takeWhile wordChar)
    if ty ∈ conventionalCommitTypes then (40, true, some ty)
    else (20, false, none)
  else (0, false, none)

/-- Message-length scoring block of `analyzeMessageQuality`. -/
def messageLengthScorePart (fl : List Char) : ℕ :=
  let length := fl.length
  if 10 ≤ length ∧ length ≤ 72 then 30
  else if 72 < length ∧ length ≤ 100 then 20
  else if 100 < length then 10
  else if 5 ≤ length ∧ length < 10 then 15
  else 5

/-- The word examined by the imperative-mood block: when a known
conventional type was detected the line after the first `:` is taken
and trimmed, then the first whitespace-separated word is lowercased. -/
def firstWordAfterType (fl : List Char) (isConv : Bool) : List Char :=
  let base :=
    if isConv then
      let t := fl.dropWhile (fun c => c ≠ ':')
      if t.isEmpty then fl else trimChars t.tail
    else fl
  lowerChars (base.takeWhile (fun c => !jsWs c))

/-- Imperative-mood scoring block of `analyzeMessageQuality`. -/
def imperativeScorePart (fl : List Char) (isConv : Bool) : ℕ :=
  let fw := firstWordAfterType fl isConv
  if fw ∈ imperativeVerbs then 30
  else if endsWithChar 's' fw && fw.dropLast ∈ imperativeVerbs then 15
  else if "ed".data.isSuffixOf fw || "ing".data.isSuffixOf fw then 10
  else if (match fl with | c :: _ => c.isUpper | [] => false) && 10 < fl.length
    then 15
  else 5

/-- `MessageQualityScore` of src/types. -/
structure MessageQualityScore where
  conventionalCommit : ℕ
  messageLength : ℕ
  imperativeMood : ℕ
  total : ℕ
  isConventionalCommit : Bool
  commitType : Option (List Char)
deriving DecidableEq

/-- `analyzeMessageQuality` of commit-analyzer.ts. -/
def analyzeMessageQuality (message : List Char) : MessageQualityScore :=
  let fl := firstLineOf message
  let conv := conventionalScorePart fl
  let lenScore := messageLengthScorePart fl
  let impScore := imperativeScorePart fl conv.2.1
  { conventionalCommit := conv.1
    messageLength := lenScore
    imperativeMood := impScore
    total := conv.1 + lenScore + impScore
    isConventionalCommit := conv.2.1
    commitType := conv.2.2 }

/-- `CommitSizeScore` of src/types. -/
structure CommitSizeScore where
  linesChanged : ℕ
  filesChanged : ℕ
  total : ℕ
  isGiantCommit : Bool
  isTinyCommit : Bool
deriving DecidableEq

/-- Lines-changed scoring block of `analyzeCommitSize`. -/
def linesScorePart (linesChanged : ℕ) : ℕ :=
  if linesChanged = 0 then 25
  else if 1 ≤ linesChanged ∧ linesChanged ≤ 300 then 50
  else if 300 < linesChanged ∧ linesChanged ≤ 500 then 40
  else if 500 < linesChanged ∧ linesChanged ≤ 1000 then 25
  else 10

/-- Files-changed scoring block of `analyzeCommitSize`. -/
def filesScorePart (filesChanged : ℕ) : ℕ :=
  if filesChanged = 0 then 25
  else if 1 ≤ filesChanged ∧ filesChanged ≤ 10 then 50
  else if 10 < filesChanged ∧ filesChanged ≤ 20 then 40
  else if 20 < filesChanged ∧ filesChanged ≤ 50 then 25
  else 10

/-- `analyzeCommitSize` of commit-analyzer.ts. -/
def analyzeCommitSize (linesChanged filesChanged : ℕ) : CommitSizeScore :=
  { linesChanged := linesScorePart linesChanged
    filesChanged := filesScorePart filesChanged
    total := linesScorePart linesChanged + filesScorePart filesChanged
    isGiantCommit := decide (1000 < linesChanged)
    isTinyCommit := decide (linesChanged < 5) }

/-- The `stats` field of a fetched commit. -/
structure CommitStats where
  additions : ℕ
  deletions : ℕ
  total : ℕ
  filesChanged : ℕ
deriving DecidableEq

/-- A fetched commit, restricted to the fields the scorer reads. -/
structure Commit where
  sha : String
  message : List Char
  stats : CommitStats
deriving DecidableEq

/-- `CommitScore` of src/types. -/
structure CommitScore where
  sha : String
  messageQuality : MessageQualityScore
  sizeScore : CommitSizeScore
  overallScore : ℕ
deriving DecidableEq

/-- `Math.round(a * 0.6 + b * 0.4)` for natural `a`, `b` at most 100:
the exact value `(3a+2b)/5` is never a half-integer, the double error is
far below the distance 1/10 to the nearest half-integer, and rounding
half-up of `(6a+4b)/10` is floor of `(6a+4b+5)/10`. -/
def roundMix60_40 (a b : ℕ) : ℕ :=
  (6 * a + 4 * b + 5) / 10

/-- `calculateCommitScore` of commit-analyzer.ts. -/
def calculateCommitScore (c : Commit) : CommitScore :=
  let mq := analyzeMessageQuality c.message
  let sz := analyzeCommitSize c.stats.total c.stats.filesChanged
  { sha := c.sha
    messageQuality := mq
    sizeScore := sz
    overallScore := roundMix60_40 mq.total sz.total }

/-- A contributor as handed to `calculateContributorScore`: an author
identity together with the commits grouped under it. -/
structure Contributor where
  email : String
  commits : List Commit
deriving DecidableEq

/-- `ContributorCategory` of src/types. -/
inductive ContributorCategory where
  | excellent
  | good
  | needsImprovement
deriving DecidableEq

/-- `determineCategory` of commit-analyzer.ts. -/
def determineCategory (averageScore : ℕ) : ContributorCategory :=
  if 80 ≤ averageScore then .excellent
  else if 60 ≤ averageScore then .good
  else .needsImprovement

/-- `ContributorScore` of src/types. -/
structure ContributorScore where
  email : String
  averageScore : ℕ
  consistencyScore : ℕ
  category : ContributorCategory
  commitScores : List CommitScore
deriving DecidableEq

/-- `Math.round(sum / n)` for naturals, `n > 0`: floor of `sum/n + 1/2`. -/
def avgRoundNat (sum n : ℕ) : ℕ :=
  (2 * sum + n) / (2 * n)

/-- The `scores` list gathered by `calculateContributorScore`: the map
entries found for the shas of the contributor commits, missing entries
skipped. -/
def collectScores (ctr : Contributor) (commitScores : String → Option CommitScore) :
    List CommitScore :=
  ctr.commits.filterMap (fun c => commitScores c.sha)

/-- Least `k` with `S ≤ k * k`, by bounded linear search (`k = S` always
satisfies the bound, so fuel `S` suffices). -/
def ceilSqrtGo (S : ℕ) : ℕ → ℕ → ℕ
  | 0, k => k
  | fuel + 1, k => if S ≤ k * k then k else ceilSqrtGo S fuel (k + 1)

/-- Ceiling of the square root of a natural number. -/
def ceilSqrt (S : ℕ) : ℕ :=
  ceilSqrtGo S S 0

/-- For a nonnegative fraction `p / q` (`q > 0`), the least natural `k`
with `p / q ≤ (k + 1/2)^2`, that is `⌈√(p/q) - 1/2⌉`.  This is the exact
value of rounding-half-down the standard deviation. -/
def sqrtHalfDownFrac (p q : ℕ) : ℕ :=
  ((ceilSqrt (4 * p * q) + q - 1) / q) / 2

/-- `n^2 * Σ (x - mean)^2` as an integer: `Σ (n*x - sum)^2`. -/
def devSqSumZ (values : List ℕ) : ℤ :=
  (values.map (fun x : ℕ => ((values.length : ℤ) * (x : ℤ) - (values.sum : ℤ)) ^ 2)).sum

/-- Natural-number version of `devSqSumZ` (the sum of squares is
nonnegative). -/
def devSqSum (values : List ℕ) : ℕ :=
  (devSqSumZ values).toNat

/-- `⌈stdDev - 1/2⌉` for the population standard deviation computed by
`standardDeviation` of commit-analyzer.ts: the variance is exactly
`devSqSum values / length^3`, and `Math.round(100 - stdDev)` equals
`100 - ⌈stdDev - 1/2⌉`.  An empty list gives standard deviation 0, as in
the early return of the source. -/
def stdDevRoundHalfDown (values : List ℕ) : ℕ :=
  if values.isEmpty then 0
  else sqrtHalfDownFrac (devSqSum values) (values.length ^ 3)

/-- The consistency computation of `calculateContributorScore`:
`Math.max(0, Math.min(100, Math.round(100 - stdDev)))`. -/
def consistencyScoreOf (values : List ℕ) : ℕ :=
  (max 0 (min 100 (100 - (stdDevRoundHalfDown values : ℤ)))).toNat

/-- `calculateContributorScore` of commit-analyzer.ts. -/
def calculateContributorScore (ctr : Contributor)
    (commitScores : String → Option CommitScore) : ContributorScore :=
  let scores := collectScores ctr commitScores
  let overallScores := scores.map (fun s => s.overallScore)
  let averageScore :=
    if overallScores.isEmpty then 0
    else avgRoundNat overallScores.sum overallScores.length
  { email := ctr.email
    averageScore := averageScore
    consistencyScore := consistencyScoreOf overallScores
    category := determineCategory averageScore
    commitScores := scores }

/-- The sha-keyed commit-score map built by `analyzeRepository`:
`Map.set` in iteration order means the last commit with a given sha
wins, hence lookup in the reversed list. -/
def scoreMapGet (commits : List Commit) : String → Option CommitScore :=
  fun sha => (commits.reverse.find? (fun c => c.sha == sha)).map calculateCommitScore

/-- The repository-wide score of `analyzeRepository`: the rounded mean
of all per-commit overall scores, 0 for an empty commit list. -/
def repositoryScoreOf (commits : List Commit) : ℕ :=
  if commits.isEmpty then 0
  else
    avgRoundNat ((commits.map (fun c => (calculateCommitScore c).overallScore)).sum)
      commits.length

/-- The exact population variance of a list of natural scores, as the
`standardDeviation` helper of commit-analyzer.ts computes it (before the
square root). -/
def varianceQ (values : List ℕ) : ℚ :=
  if values.isEmpty then 0
  else
    ((values.map (fun x : ℕ => ((x : ℚ) - (values.sum : ℚ) / values.length) ^ 2)).sum) /
      values.length

end CommitAnalyzer

/-- Replace-or-append update of an association list, the model of
`Map.set`. -/
def setKV {α : Type} : List (String × α) → String → α → List (String × α)
  | [], k, v => [(k, v)]
  | (k', v') :: rest, k, v =>
      if k' = k then (k, v) :: rest else (k', v') :: setKV rest k v

/-- Lookup in an association list, the model of `Map.get`. -/
def lookupKV {α : Type} : List (String × α) → String → Option α
  | [], _ => none
  | (k', v') :: rest, k => if k' = k then some v' else lookupKV rest k

/-- `s.slice(0, n)` via the underlying character list. -/
def strTake (s : String) (n : ℕ) : String :=
  String.mk (s.data.take n)

/-- Splitting a list into consecutive chunks, with explicit fuel (the
list length) so that the definition is structural; `for (i = 0; i < n;
i += batchSize)` over `slice(i, i + batchSize)`. -/
def chunksOfGo {α : Type} (n : ℕ) : ℕ → List α → List (List α)
  | 0, _ => []
  | _, [] => []
  | fuel + 1, c :: rest => (c :: rest).take n :: chunksOfGo n fuel ((c :: rest).drop n)

/-- The batches `commits.slice(i, i + n)` for `i = 0, n, 2n, …`. -/
def chunksOf {α : Type} (n : ℕ) (l : List α) : List (List α) :=
  chunksOfGo n l.length l

/-- JavaScript `x || d` for a possibly-absent number `x`: both an absent
field and a reported 0 are falsy and give the default. -/
def jsOrZ (v : Option ℤ) (d : ℤ) : ℤ :=
  match v with
  | none => d
  | some x => if x = 0 then d else x

/-- JavaScript `x || d` for a possibly-absent string `x`: both an absent
field and the empty string are falsy and give the default. -/
def jsOrStr (v : Option String) (d : String) : String :=
  match v with
  | none => d
  | some s => if s = "" then d else s

namespace Scoring

/-!
Embedding of src/lib/analysis/scoring.ts (the enhanced-scoring module
used by `calculateEnhancedScores`).
-/

open CommitAnalyzer (Commit CommitStats roundMix60_40)

/-- `CONVENTIONAL_PREFIXES` of scoring.ts. -/
def conventionalTypesH : List (List Char) :=
  ["feat".data, "fix".data, "docs".data, "style".data, "refactor".data,
   "test".data, "chore".data, "perf".data, "ci".data, "build".data,
   "revert".data]

/-- `IMPERATIVE_VERBS` of scoring.ts. -/
def imperativeVerbsH : List (List Char) :=
  ["add".data, "fix".data, "update".data, "remove".data, "create".data,
   "implement".data, "change".data, "delete".data, "move".data,
   "rename".data, "improve".data, "refactor".data, "optimize".data,
   "clean".data, "merge".data, "revert".data, "bump".data,
   "release".data, "upgrade".data, "downgrade".data]

/-- Search for a `)` immediately followed by `:`; skipped characters
belong to the `.+` group and therefore must not be newlines. -/
def scanCloseColon : List Char → Bool
  | [] => false
  | c :: rest =>
      (c = ')' && rest.head? = some ':') || (c ≠ '\n' && scanCloseColon rest)

/-- After a matched type: either `:` directly, or `(`, a nonempty
newline-free group, `)` and `:` (existence semantics of `test()`). -/
def afterTypeMark : List Char → Bool
  | ':' :: _ => true
  | '(' :: c :: rest => c ≠ '\n' && scanCloseColon rest
  | _ => false

/-- Whether `^(feat|fix|…)(\(.+\))?:` matches case-insensitively: the
test of the prefix pattern in scoring.ts.  No listed type is a prefix of
another, so alternation is plain existence over the list. -/
def hasTypeMark (msg : List Char) : Bool :=
  let ml := lowerChars msg
  conventionalTypesH.any (fun t => listStartsWith ml t && afterTypeMark (ml.drop t.length))

/-- Length of the greedy `\s*` run. -/
def wsRunLen (l : List Char) : ℕ :=
  (l.takeWhile jsWs).length

/-- Greedy search for the last `):` position inside the group content:
returns (largest index of the `)` plus 2), over closes at index ≥ 1 (the
group is nonempty) occurring before any newline. -/
def lastCloseColon : List Char → ℕ → Option ℕ → Option ℕ
  | [], _, best => best
  | c :: rest, i, best =>
      if c = '\n' then best
      else
        lastCloseColon rest (i + 1)
          (if c = ')' ∧ rest.head? = some ':' ∧ 1 ≤ i then some (i + 2) else best)

/-- Number of characters the greedy regex `(\(.+\))?:\s*` consumes after
the type, or `none` when the regex does not match there. -/
def greedyAfterType : List Char → Option ℕ
  | ':' :: rest => some (1 + wsRunLen rest)
  | '(' :: c0 :: rest0 =>
      match lastCloseColon (c0 :: rest0) 0 none with
      | some n => some (1 + n + wsRunLen ((c0 :: rest0).drop n))
      | none => none
  | _ => none

/-- `message.replace(/^(feat|…)(\(.+\))?:\s*/i, '')`: at most one listed
type can start the message (no type is a prefix of another); when the
greedy remainder matches, the matched prefix is removed. -/
def stripTypeMark (msg : List Char) : List Char :=
  match conventionalTypesH.find? (fun t => listStartsWith (lowerChars msg) t) with
  | none => msg
  | some t =>
      match greedyAfterType (msg.drop t.length) with
      | none => msg
      | some n => msg.drop (t.length + n)

/-- The lowercased first whitespace-separated word of the stripped
message (empty when the stripped message starts with whitespace or is
empty, as `split(/\s+/)[0]` yields). -/
def heuristicFirstWord (msg : List Char) : List Char :=
  lowerChars ((stripTypeMark msg).takeWhile (fun c => !jsWs c))

/-- The message-quality part (out of 100) of
`calculateSingleCommitHeuristicScore`. -/
def heuristicMessageScore (msg : List Char) : ℕ :=
  let convPts : ℕ := if hasTypeMark msg then 40 else 0
  let msgLen := msg.length
  let lenPts : ℕ :=
    if 20 ≤ msgLen ∧ msgLen ≤ 72 then 30
    else if 10 ≤ msgLen ∧ msgLen ≤ 100 then 15
    else 0
  let fw := heuristicFirstWord msg
  let impPts : ℕ := if imperativeVerbsH.any (fun v => listStartsWith fw v) then 30 else 0
  convPts + lenPts + impPts

/-- The size part (out of 100) of `calculateSingleCommitHeuristicScore`
and the standalone size breakdown of `calculateEnhancedScores`. -/
def heuristicSizeScore (linesChanged filesChanged : ℕ) : ℕ :=
  let linesPts : ℕ :=
    if 10 ≤ linesChanged ∧ linesChanged ≤ 200 then 50
    else if 200 < linesChanged ∧ linesChanged ≤ 500 then 30
    else if 500 < linesChanged ∧ linesChanged ≤ 1000 then 15
    else 0
  let filesPts : ℕ :=
    if 1 ≤ filesChanged ∧ filesChanged ≤ 5 then 50
    else if 5 < filesChanged ∧ filesChanged ≤ 10 then 30
    else if 10 < filesChanged ∧ filesChanged ≤ 20 then 15
    else 0
  linesPts + filesPts

/-- `calculateSingleCommitHeuristicScore` of scoring.ts. -/
def calculateSingleCommitHeuristicScore (c : Commit) : ℕ :=
  roundMix60_40 (heuristicMessageScore c.message)
    (heuristicSizeScore c.stats.total c.stats.filesChanged)

/-- `SemanticAnalysis` of src/types (scoring.ts consumes the clarity,
completeness and technicalQuality fields). -/
structure SemanticAnalysis where
  intent : String
  intentConfidence : ℤ
  clarity : ℤ
  completeness : ℤ
  technicalQuality : ℤ
  reasoning : String
deriving DecidableEq

/-- The `aiScores` sub-object of `EnhancedCommitScore`. -/
structure AIScores where
  clarity : ℤ
  completeness : ℤ
  technicalQuality : ℤ
deriving DecidableEq

/-- The `breakdown` sub-object of `EnhancedCommitScore`. -/
structure ScoreBreakdown where
  heuristic : ℤ
  clarity : ℤ
  completeness : ℤ
  size : ℤ
  technical : ℤ
deriving DecidableEq

/-- `EnhancedCommitScore` of src/types: `aiScores` is an optional field,
absent in the heuristic-only fallback. -/
structure EnhancedCommitScore where
  sha : String
  overall : ℤ
  heuristicScore : ℕ
  aiScores : Option AIScores
  breakdown : ScoreBreakdown
deriving DecidableEq

/-- Per-commit body of `calculateEnhancedScores`: full enhanced scoring
when a `SemanticAnalysis` is present, heuristic-only fallback otherwise.
`Math.round` of the weighted double sums is modelled as exact rational
rounding. -/
def enhanceScoreOne (sem : String → Option SemanticAnalysis) (c : Commit) :
    EnhancedCommitScore :=
  let heuristicScore := calculateSingleCommitHeuristicScore c
  let sizeScore := heuristicSizeScore c.stats.total c.stats.filesChanged
  match sem c.sha with
  | some ai =>
      { sha := c.sha
        overall := round ((6 * (heuristicScore : ℚ) + 5 * (ai.clarity : ℚ) +
          4 * (ai.completeness : ℚ) + 4 * (sizeScore : ℚ) +
          (ai.technicalQuality : ℚ)) / 20)
        heuristicScore := heuristicScore
        aiScores := some
          { clarity := ai.clarity
            completeness := ai.completeness
            technicalQuality := ai.technicalQuality }
        breakdown :=
          { heuristic := round ((3 * (heuristicScore : ℚ)) / 10)
            clarity := round ((ai.clarity : ℚ) / 4)
            completeness := round ((ai.completeness : ℚ) / 5)
            size := round ((sizeScore : ℚ) / 5)
            technical := round ((ai.technicalQuality : ℚ) / 20) } }
  | none =>
      { sha := c.sha
        overall := (heuristicScore : ℤ)
        heuristicScore := heuristicScore
        aiScores := none
        breakdown :=
          { heuristic := round ((3 * (heuristicScore : ℚ)) / 10)
            clarity := 0
            completeness := 0
            size := round ((sizeScore : ℚ) / 5)
            technical := 0 } }

/-- `calculateEnhancedScores` of scoring.ts. -/
def calculateEnhancedScores (commits : List Commit)
    (sem : String → Option SemanticAnalysis) : List EnhancedCommitScore :=
  commits.map (enhanceScoreOne sem)

end Scoring

namespace OpenAIClient

/-!
Embedding of the `AIAnalyzer` class of src/lib/openai-client.ts: the
batch join of `processBatches`, the per-commit enhancement step of
`analyzeRepository` and the response sanitising of `analyzeBatch`.
-/

open CommitAnalyzer (Commit CommitStats CommitScore)

/-- `SemanticAnalysis` as openai-client.ts stores it. -/
structure SemanticAnalysisO where
  intent : Option String
  clarityScore : ℤ
  completenessScore : ℤ
  technicalQualityScore : ℤ
  summary : String
deriving DecidableEq

/-- One parsed element of the provider response array, every field
possibly absent. -/
structure RawAnalysisO where
  sha : Option String
  intent : Option String
  clarityScore : Option ℤ
  completenessScore : Option ℤ
  technicalQualityScore : Option ℤ
  summary : Option String
deriving DecidableEq

/-- The per-element sanitising of `analyzeBatch` (lines 126-132):
`Math.min(100, Math.max(0, x || 50))` on each score and defaulting of
the summary. -/
def sanitizeAnalysisO (r : RawAnalysisO) : SemanticAnalysisO :=
  { intent := r.intent
    clarityScore := min 100 (max 0 (jsOrZ r.clarityScore 50))
    completenessScore := min 100 (max 0 (jsOrZ r.completenessScore 50))
    technicalQualityScore := min 100 (max 0 (jsOrZ r.technicalQualityScore 50))
    summary := jsOrStr r.summary "No summary available" }

/-- A scored commit as `AIAnalyzer` receives it. -/
structure ScoredCommit where
  sha : String
  message : List Char
  stats : CommitStats
  score : CommitScore
deriving DecidableEq

/-- `calculateEnhancedScore` of openai-client.ts (weights 30/25/20/20/5,
modelled as exact rational rounding). -/
structure EnhancedCommitScoreO where
  sha : String
  heuristicScore : ℕ
  clarityScore : ℤ
  completenessScore : ℤ
  sizeScore : ℕ
  technicalScore : ℤ
  overallScore : ℤ
  semanticAnalysis : SemanticAnalysisO
deriving DecidableEq

/-- `calculateEnhancedScore` of openai-client.ts. -/
def calculateEnhancedScoreO (c : ScoredCommit) (semantic : SemanticAnalysisO) :
    EnhancedCommitScoreO :=
  let heuristicScore := c.score.overallScore
  let sizeScore := c.score.sizeScore.total
  { sha := c.sha
    heuristicScore := heuristicScore
    clarityScore := semantic.clarityScore
    completenessScore := semantic.completenessScore
    sizeScore := sizeScore
    technicalScore := semantic.technicalQualityScore
    overallScore := round ((6 * (heuristicScore : ℚ) +
      5 * (semantic.clarityScore : ℚ) + 4 * (semantic.completenessScore : ℚ) +
      4 * (sizeScore : ℚ) + (semantic.technicalQualityScore : ℚ)) / 20)
    semanticAnalysis := semantic }

/-- A commit after the enhancement step of `analyzeRepository`: the
`enhancedScore` field is optional and stays absent when no
`SemanticAnalysis` was found for the sha. -/
structure AIEnhancedCommit where
  commit : ScoredCommit
  enhancedScore : Option EnhancedCommitScoreO
deriving DecidableEq

/-- The per-commit enhancement step of `analyzeRepository` (lines
323-332): a commit whose sha has no semantic result is returned
unchanged, without any enhanced score. -/
def enhanceCommit (sem : String → Option SemanticAnalysisO) (c : ScoredCommit) :
    AIEnhancedCommit :=
  match sem c.sha with
  | some semantic => { commit := c, enhancedScore := some (calculateEnhancedScoreO c semantic) }
  | none => { commit := c, enhancedScore := none }

/-- Merging one fulfilled batch result into the accumulated map
(`processBatches` lines 296-304): each short sha is resolved against the
full commit list and, when found, written with `Map.set`. -/
def mergeBatchResultO (commits : List ScoredCommit)
    (acc : List (String × SemanticAnalysisO))
    (m : List (String × SemanticAnalysisO)) : List (String × SemanticAnalysisO) :=
  m.foldl
    (fun a kv =>
      match commits.find? (fun c => strStartsWith c.sha kv.1) with
      | some c => setKV a c.sha kv.2
      | none => a) acc

/-- The `Promise.all` join of `processBatches`: groups of at most
`MAX_CONCURRENT_BATCHES = 3` batches are awaited together and any
rejected batch call rejects the whole computation. -/
def processGroupsO (call : List ScoredCommit → Except Unit (List (String × SemanticAnalysisO)))
    (commits : List ScoredCommit) (acc : List (String × SemanticAnalysisO)) :
    List (List ScoredCommit) → Except Unit (List (String × SemanticAnalysisO))
  | [] => .ok acc
  | [b1] =>
      match call b1 with
      | .ok m1 => .ok (mergeBatchResultO commits acc m1)
      | .error e => .error e
  | [b1, b2] =>
      match call b1, call b2 with
      | .ok m1, .ok m2 => .ok (mergeBatchResultO commits (mergeBatchResultO commits acc m1) m2)
      | _, _ => .error ()
  | b1 :: b2 :: b3 :: rest =>
      match call b1, call b2, call b3 with
      | .ok m1, .ok m2, .ok m3 =>
          processGroupsO call commits
            (mergeBatchResultO commits
              (mergeBatchResultO commits (mergeBatchResultO commits acc m1) m2) m3) rest
      | _, _, _ => .error ()

/-- `processBatches` of openai-client.ts, with the batch call as an
oracle: batches of `BATCH_SIZE = 20`, groups of 3, fail-fast join. -/
def processBatchesO (call : List ScoredCommit → Except Unit (List (String × SemanticAnalysisO)))
    (commits : List ScoredCommit) : Except Unit (List (String × SemanticAnalysisO)) :=
  processGroupsO call commits [] (chunksOf 20 commits)

end OpenAIClient

namespace AIClient

/-!
Embedding of the `AIClient` class (the batched client with
`Promise.allSettled`): response sanitising and map building of
`analyzeCommitBatch`, and the tolerant join of `analyzeCommits`.
-/

/-- One `{sha, message, body}` item of a batch. -/
structure BatchItem where
  sha : String
  message : List Char
  body : Option (List Char)
deriving DecidableEq

/-- `SemanticAnalysis` of the batched client. -/
structure SemanticAnalysisA where
  intent : String
  intentConfidence : ℤ
  clarity : ℤ
  completeness : ℤ
  technicalQuality : ℤ
  reasoning : String
deriving DecidableEq

/-- One parsed element of the provider response array, every field
possibly absent. -/
structure RawResultA where
  sha : Option String
  intent : Option String
  intentConfidence : Option ℤ
  clarity : Option ℤ
  completeness : Option ℤ
  technicalQuality : Option ℤ
  reasoning : Option String
deriving DecidableEq

/-- The sanitising of `analyzeCommitBatch` (lines 144-151):
`Math.min(100, Math.max(0, x || 50))` on each numeric field, `'chore'`
and `''` defaults on the strings. -/
def sanitizeAnalysisA (r : RawResultA) : SemanticAnalysisA :=
  { intent := jsOrStr r.intent "chore"
    intentConfidence := min 100 (max 0 (jsOrZ r.intentConfidence 50))
    clarity := min 100 (max 0 (jsOrZ r.clarity 50))
    completeness := min 100 (max 0 (jsOrZ r.completeness 50))
    technicalQuality := min 100 (max 0 (jsOrZ r.technicalQuality 50))
    reasoning := jsOrStr r.reasoning "" }

/-- The sha-resolution condition of `analyzeCommitBatch` (lines
139-141).  When the response sha is absent, JavaScript coerces
`undefined` into the literal string in `c.sha.startsWith(result.sha)`
while the optional chain on the other side is falsy. -/
def shaMatches (c : BatchItem) (r : RawResultA) : Bool :=
  match r.sha with
  | some s => strStartsWith c.sha s || strStartsWith s (strTake c.sha 7)
  | none => strStartsWith c.sha "undefined"

/-- The resolved full sha for one response element, if any. -/
def matchSha (commits : List BatchItem) (r : RawResultA) : Option String :=
  (commits.find? (fun c => shaMatches c r)).map (fun c => c.sha)

/-- The map-building loop of `analyzeCommitBatch` over the parsed
response array. -/
def buildAnalysisMap (commits : List BatchItem) (results : List RawResultA) :
    List (String × SemanticAnalysisA) :=
  results.foldl
    (fun acc r =>
      match matchSha commits r with
      | some sha => setKV acc sha (sanitizeAnalysisA r)
      | none => acc) []

/-- Merging one settled batch into the accumulated map (`analyzeCommits`
lines 185-192): fulfilled results are written with `Map.set`, rejected
ones are skipped. -/
def mergeSettled (acc : List (String × SemanticAnalysisA))
    (res : Except Unit (List (String × SemanticAnalysisA))) :
    List (String × SemanticAnalysisA) :=
  match res with
  | .ok m => m.foldl (fun a kv => setKV a kv.1 kv.2) acc
  | .error _ => acc

/-- The `Promise.allSettled` join of `analyzeCommits`: groups of at most
`concurrency = 3` batches; every batch settles and only the fulfilled
ones are merged, in batch order. -/
def processGroupsA (call : List BatchItem → Except Unit (List (String × SemanticAnalysisA)))
    (acc : List (String × SemanticAnalysisA)) :
    List (List BatchItem) → List (String × SemanticAnalysisA)
  | [] => acc
  | [b1] => mergeSettled acc (call b1)
  | [b1, b2] => mergeSettled (mergeSettled acc (call b1)) (call b2)
  | b1 :: b2 :: b3 :: rest =>
      processGroupsA call
        (mergeSettled (mergeSettled (mergeSettled acc (call b1)) (call b2)) (call b3)) rest

/-- `analyzeCommits` of the batched client, with the batch call as an
oracle: batches of `batchSize = 20`, concurrency 3, tolerant join. -/
def analyzeCommitsModel
    (call : List BatchItem → Except Unit (List (String × SemanticAnalysisA)))
    (commits : List BatchItem) : List (String × SemanticAnalysisA) :=
  processGroupsA call [] (chunksOf 20 commits)

end AIClient

namespace Analyzer

/-!
Embedding of the author grouping of src/lib/analysis/analyzer.ts and of
the contributor grouping of `analyzeContributorPatterns` in
src/lib/temporal-analysis.ts.
-/

/-- A commit restricted to the fields the grouping reads; the nested
`author.email` is flattened into one field. -/
structure ACommit where
  sha : String
  authorEmail : String
deriving DecidableEq

/-- Append a value to the group of key `k`, creating the group at the
end on first occurrence (both lodash `groupBy` and the `Map`-based loop
keep first-occurrence key order and in-group insertion order). -/
def insertGrouped {α : Type} : List (String × List α) → String → α → List (String × List α)
  | [], k, c => [(k, [c])]
  | (k', g) :: rest, k, c =>
      if k' = k then (k', g ++ [c]) :: rest else (k', g) :: insertGrouped rest k c

/-- Group a list by a string key. -/
def groupByKey {α : Type} (key : α → String) (l : List α) : List (String × List α) :=
  l.foldl (fun acc c => insertGrouped acc (key c) c) []

/-- `groupCommitsByAuthor` of analyzer.ts: lodash `groupBy` on
`c.author.email`, the raw email string. -/
def groupCommitsByAuthor (commits : List ACommit) : List (String × List ACommit) :=
  groupByKey (fun c => c.authorEmail) commits

/-- The contributor grouping of `analyzeContributorPatterns` in
temporal-analysis.ts: keyed by `c.author.email.toLowerCase()`. -/
def contributorPatternGroups (commits : List ACommit) : List (String × List ACommit) :=
  groupByKey (fun c => lowerStr c.authorEmail) commits

end Analyzer

namespace Collaboration

/-!
Embedding of `calculateBusFactor` of the collaboration module.  Only the
`stats.totalCommits` field of a contributor feeds the overall bus
factor, so a contributor is reduced to that count; the ownership input
only affects the `criticalFiles` and `recommendation` fields, not the
factor.
-/

/-- A contributor reduced to its `stats.totalCommits`. -/
structure BFContributor where
  totalCommits : ℕ
deriving DecidableEq

/-- The accumulation loop of `calculateBusFactor` (lines 169-174):
counts contributors until the cumulative count reaches half the total.
The double comparison `cumulative >= total * 0.5` is exact and equals
`total ≤ 2 * cumulative`. -/
def bfCount (total : ℕ) : List ℕ → ℕ → ℕ
  | [], _ => 0
  | c :: rest, cum => if total ≤ 2 * (cum + c) then 1 else 1 + bfCount total rest (cum + c)

/-- The commit counts sorted descending, as the stable JavaScript sort
with comparator `b.stats.totalCommits - a.stats.totalCommits` orders
them (any descending sort of the same multiset gives this value
sequence). -/
def sortedCountsDesc (counts : List ℕ) : List ℕ :=
  List.insertionSort (fun a b => a ≥ b) counts

/-- `overallBusFactor` of `calculateBusFactor`: 0 for an empty
contributor list, otherwise the loop over the descending counts. -/
def calculateBusFactor (contributors : List BFContributor) : ℕ :=
  if contributors.isEmpty then 0
  else
    let counts := contributors.map (fun c => c.totalCommits)
    bfCount counts.sum (sortedCountsDesc counts) 0

/-- Taking every contributor always reaches half the total commit count,
so a least qualifying `k ≥ 1` exists. -/
def specBusFactorEx (counts : List ℕ) (h : counts ≠ []) :
    ∃ k, 1 ≤ k ∧ counts.sum ≤ 2 * ((sortedCountsDesc counts).take k).sum :=
  ⟨counts.length, by
    constructor
    · exact Nat.one_le_iff_ne_zero.mpr (fun hlen => h (List.length_eq_zero.mp hlen))
    · have hperm : (sortedCountsDesc counts).Perm counts := List.perm_insertionSort _ _
      have hlen : counts.length = (sortedCountsDesc counts).length := (hperm.length_eq).symm
      rw [hlen, List.take_length, hperm.sum_eq]
      omega⟩

/-- The specified bus factor: the least number `k ≥ 1` of contributors,
taken in descending order of commit count, whose cumulative commit count
reaches at least half the total. -/
def specBusFactor (counts : List ℕ) (h : counts ≠ []) : ℕ :=
  Nat.find (specBusFactorEx counts h)

end Collaboration

namespace CommitAnalyzer

/-- Specification-side reading of "the subject matches the
conventional-commit prefix form": the subject decomposes as a nonempty
run `w` of word characters, an optional scope `(…)` with nonempty
content and optional `!`, a colon, and a nonempty description; the
detected type is the lowercased `w`. -/
def IsConvSubjectWith (s ty : List Char) : Prop :=
  ∃ w opt rest, s = w ++ opt ++ ':' :: rest ∧ w ≠ [] ∧
    (∀ c ∈ w, wordChar c = true) ∧ rest ≠ [] ∧
    (opt = [] ∨ opt = ['!'] ∨
      ∃ m, m ≠ [] ∧ (opt = '(' :: (m ++ [')']) ∨ opt = '(' :: (m ++ [')', '!']))) ∧
    ty = lowerChars w

end CommitAnalyzer

namespace Samples

/-!
Concrete inputs used by the counterexamples and witnesses below.
-/

open CommitAnalyzer OpenAIClient AIClient Analyzer Collaboration

/-- A commit whose message scores 40 (no convention 0, length 30,
past-tense 10) and whose size scores 65 (400 lines = 40, 30 files = 25),
so its overall score is (3*40+2*65)/5 = 50. -/
def addedCommit : CommitAnalyzer.Commit :=
  { sha := "a1"
    message := "added something here".data
    stats := { additions := 200, deletions := 200, total := 400, filesChanged := 30 } }

/-- A commit whose message scores 45 (no convention 0, length 30,
third-person verb 15) and whose size scores 60 (1100 lines = 10, 5 files
= 50), so its overall score is (3*45+2*60)/5 = 51. -/
def addsCommit : CommitAnalyzer.Commit :=
  { sha := "b2"
    message := "adds something here".data
    stats := { additions := 1000, deletions := 100, total := 1100, filesChanged := 5 } }

/-- A contributor owning the two commits above. -/
def devContributor : CommitAnalyzer.Contributor :=
  { email := "dev@example.com", commits := [addedCommit, addsCommit] }

/-- The overall commit scores gathered for `devContributor` over the
two-commit repository. -/
def devScores : List ℕ :=
  ((CommitAnalyzer.calculateContributorScore devContributor
      (CommitAnalyzer.scoreMapGet [addedCommit, addsCommit])).commitScores).map
    (fun s => s.overallScore)

/-- A scored commit handed to the `AIAnalyzer` enhancement step. -/
def sampleScored : OpenAIClient.ScoredCommit :=
  { sha := "a1"
    message := addedCommit.message
    stats := addedCommit.stats
    score := CommitAnalyzer.calculateCommitScore addedCommit }

/-- One batch item with a fixed message. -/
def batchItem (s : String) : AIClient.BatchItem :=
  { sha := s, message := "fix bug".data, body := none }

/-- Twenty-one batch items: they split into one full batch of 20 and a
second batch holding only `"a21"`. -/
def manyItems : List AIClient.BatchItem :=
  [batchItem "a01", batchItem "a02", batchItem "a03", batchItem "a04",
   batchItem "a05", batchItem "a06", batchItem "a07", batchItem "a08",
   batchItem "a09", batchItem "a10", batchItem "a11", batchItem "a12",
   batchItem "a13", batchItem "a14", batchItem "a15", batchItem "a16",
   batchItem "a17", batchItem "a18", batchItem "a19", batchItem "a20",
   batchItem "a21"]

/-- A fixed semantic analysis returned by the successful batch. -/
def okAnalysis : AIClient.SemanticAnalysisA :=
  { intent := "bugfix", intentConfidence := 80, clarity := 70,
    completeness := 60, technicalQuality := 90, reasoning := "ok" }

/-- A batch oracle that rejects exactly the batch holding `"a21"` (after
its retries are exhausted) and fulfills every other batch. -/
def flakyCallA : List AIClient.BatchItem →
    Except Unit (List (String × AIClient.SemanticAnalysisA)) :=
  fun b => if b.any (fun c => c.sha == "a21") then .error () else .ok [("a01", okAnalysis)]

/-- A scored commit with a fixed message and stats. -/
def scoredItem (s : String) : OpenAIClient.ScoredCommit :=
  { sha := s
    message := "fix bug".data
    stats := { additions := 1, deletions := 1, total := 2, filesChanged := 1 }
    score := CommitAnalyzer.calculateCommitScore
      { sha := s, message := "fix bug".data
        stats := { additions := 1, deletions := 1, total := 2, filesChanged := 1 } } }

/-- Twenty-one scored commits, splitting into a batch of 20 and a batch
holding only `"a21"`. -/
def manyScored : List OpenAIClient.ScoredCommit :=
  [scoredItem "a01", scoredItem "a02", scoredItem "a03", scoredItem "a04",
   scoredItem "a05", scoredItem "a06", scoredItem "a07", scoredItem "a08",
   scoredItem "a09", scoredItem "a10", scoredItem "a11", scoredItem "a12",
   scoredItem "a13", scoredItem "a14", scoredItem "a15", scoredItem "a16",
   scoredItem "a17", scoredItem "a18", scoredItem "a19", scoredItem "a20",
   scoredItem "a21"]

/-- A fixed semantic analysis for the openai-client side. -/
def okAnalysisO : OpenAIClient.SemanticAnalysisO :=
  { intent := some "bugfix", clarityScore := 70, completenessScore := 60,
    technicalQualityScore := 80, summary := "ok" }

/-- A batch oracle for `processBatches` that rejects exactly the batch
holding `"a21"` and fulfills every other batch. -/
def flakyCallO : List OpenAIClient.ScoredCommit →
    Except Unit (List (String × OpenAIClient.SemanticAnalysisO)) :=
  fun b => if b.any (fun c => c.sha == "a21") then .error () else .ok [("a01", okAnalysisO)]

/-- A commit authored under a mixed-case email. -/
def upperEmailCommit : Analyzer.ACommit :=
  { sha := "s1", authorEmail := "Dev@Example.com" }

/-- A commit authored under the lowercased form of the same email. -/
def lowerEmailCommit : Analyzer.ACommit :=
  { sha := "s2", authorEmail := "dev@example.com" }

/-- A contributor owning only the first sample commit. -/
def soloContributor : CommitAnalyzer.Contributor :=
  { email := "solo@example.com", commits := [addedCommit] }

/-- A provider response element reporting clarity 0, an out-of-range
completeness and omitting the technical-quality field. -/
def rawZeroClarity : AIClient.RawResultA :=
  { sha := some "a1", intent := some "bugfix", intentConfidence := some 90,
    clarity := some 0, completeness := some 150, technicalQuality := none,
    reasoning := some "r" }

end Samples

/-!
Helper lemmas.
-/

theorem floor_natCast_div (m n : ℕ) (hn : 0 < n) :
    ⌊(m : ℚ) / n⌋ = ((m / n : ℕ) : ℤ) := by
  have hn' : (0 : ℚ) < n := by exact_mod_cast hn
  rw [Int.floor_eq_iff]
  refine ⟨?_, ?_⟩
  · rw [Int.cast_natCast, le_div_iff₀ hn']
    exact_mod_cast Nat.div_mul_le_self m n
  · rw [Int.cast_natCast, div_lt_iff₀ hn']
    have h2 := Nat.mod_lt m hn
    have : m < (m / n + 1) * n := by
      calc m = n * (m / n) + m % n := (Nat.div_add_mod m n).symm
        _ < n * (m / n) + n := Nat.add_lt_add_left h2 _
        _ = (m / n + 1) * n := by ring
    exact_mod_cast this

namespace CommitAnalyzer

theorem roundMix_eq_round (a b : ℕ) :
    ((roundMix60_40 a b : ℕ) : ℤ) = round ((0.6 : ℚ) * a + (0.4 : ℚ) * b) := by
  have h : (0.6 : ℚ) * a + (0.4 : ℚ) * b + 1 / 2 =
      ((6 * a + 4 * b + 5 : ℕ) : ℚ) / ((10 : ℕ) : ℚ) := by
    push_cast
    ring_nf
  rw [round_eq, h, floor_natCast_div _ 10 (by norm_num)]
  rfl

theorem conventionalScorePart_cases (fl : List Char) :
    (conventionalScorePart fl).1 = 40 ∨ (conventionalScorePart fl).1 = 20 ∨
      (conventionalScorePart fl).1 = 0 := by
  unfold conventionalScorePart
  dsimp only
  split_ifs <;> simp

theorem messageLengthScorePart_le (fl : List Char) : messageLengthScorePart fl ≤ 30 := by
  unfold messageLengthScorePart
  dsimp only
  split_ifs <;> norm_num

theorem messageLengthScorePart_pos (fl : List Char) : 5 ≤ messageLengthScorePart fl := by
  unfold messageLengthScorePart
  dsimp only
  split_ifs <;> norm_num

theorem imperativeScorePart_le (fl : List Char) (b : Bool) : imperativeScorePart fl b ≤ 30 := by
  unfold imperativeScorePart
  dsimp only
  split_ifs <;> norm_num

theorem analyzeMessageQuality_total_eq (msg : List Char) :
    (analyzeMessageQuality msg).total =
      (conventionalScorePart (firstLineOf msg)).1 +
        messageLengthScorePart (firstLineOf msg) +
        imperativeScorePart (firstLineOf msg)
          (conventionalScorePart (firstLineOf msg)).2.1 := rfl

theorem analyzeMessageQuality_total_le (msg : List Char) :
    (analyzeMessageQuality msg).total ≤ 100 := by
  rw [analyzeMessageQuality_total_eq]
  have h1 := conventionalScorePart_cases (firstLineOf msg)
  have h2 := messageLengthScorePart_le (firstLineOf msg)
  have h3 := imperativeScorePart_le (firstLineOf msg)
    (conventionalScorePart (firstLineOf msg)).2.1
  omega

theorem linesScorePart_le (n : ℕ) : linesScorePart n ≤ 50 := by
  unfold linesScorePart
  split_ifs <;> norm_num

theorem filesScorePart_le (n : ℕ) : filesScorePart n ≤ 50 := by
  unfold filesScorePart
  split_ifs <;> norm_num

theorem analyzeCommitSize_total_le (lines files : ℕ) :
    (analyzeCommitSize lines files).total ≤ 100 := by
  have h1 := linesScorePart_le lines
  have h2 := filesScorePart_le files
  have h : (analyzeCommitSize lines files).total = linesScorePart lines + filesScorePart files :=
    rfl
  omega

theorem roundMix_le_100 {a b : ℕ} (ha : a ≤ 100) (hb : b ≤ 100) :
    roundMix60_40 a b ≤ 100 := by
  unfold roundMix60_40
  exact (Nat.div_le_iff_le_mul_add_pred (by norm_num)).mpr (by omega)

theorem calculateCommitScore_overall_eq (c : Commit) :
    (calculateCommitScore c).overallScore =
      roundMix60_40 (analyzeMessageQuality c.message).total
        (analyzeCommitSize c.stats.total c.stats.filesChanged).total := rfl

theorem calculateCommitScore_overall_le (c : Commit) :
    (calculateCommitScore c).overallScore ≤ 100 := by
  rw [calculateCommitScore_overall_eq]
  exact roundMix_le_100 (analyzeMessageQuality_total_le _) (analyzeCommitSize_total_le _ _)

theorem scoreMapGet_overall_le (commits : List Commit) (sha : String) (s : CommitScore)
    (h : scoreMapGet commits sha = some s) : s.overallScore ≤ 100 := by
  unfold scoreMapGet at h
  rcases Option.map_eq_some'.mp h with ⟨c, _, rfl⟩
  exact calculateCommitScore_overall_le c

theorem collectScores_overall_le (ctr : Contributor) (commits : List Commit)
    (s : CommitScore) (h : s ∈ collectScores ctr (scoreMapGet commits)) :
    s.overallScore ≤ 100 := by
  unfold collectScores at h
  rcases List.mem_filterMap.mp h with ⟨c, _, hc⟩
  exact scoreMapGet_overall_le commits c.sha s hc

theorem avgRoundNat_le_100 {sum n : ℕ} (hn : 0 < n) (h : sum ≤ 100 * n) :
    avgRoundNat sum n ≤ 100 := by
  unfold avgRoundNat
  exact (Nat.div_le_iff_le_mul_add_pred (by omega)).mpr (by omega)

theorem consistencyScoreOf_le_100 (values : List ℕ) : consistencyScoreOf values ≤ 100 := by
  unfold consistencyScoreOf
  have h : max 0 (min 100 (100 - (stdDevRoundHalfDown values : ℤ))) ≤ (100 : ℤ) := by omega
  omega

theorem ceilSqrtGo_spec (S : ℕ) :
    ∀ (fuel k : ℕ), (∀ j < k, j * j < S) → (∃ j, k ≤ j ∧ j ≤ k + fuel ∧ S ≤ j * j) →
      S ≤ ceilSqrtGo S fuel k * ceilSqrtGo S fuel k ∧
        ∀ j < ceilSqrtGo S fuel k, j * j < S := by
  intro fuel
  induction fuel with
  | zero =>
      intro k hmin hex
      obtain ⟨j, hj1, hj2, hj3⟩ := hex
      have hjk : j = k := by omega
      subst hjk
      exact ⟨by simpa [ceilSqrtGo] using hj3, by simpa [ceilSqrtGo] using hmin⟩
  | succ fuel ih =>
      intro k hmin hex
      by_cases hS : S ≤ k * k
      · simp only [ceilSqrtGo, if_pos hS]
        exact ⟨hS, hmin⟩
      · simp only [ceilSqrtGo, if_neg hS]
        apply ih (k + 1)
        · intro j hj
          rcases Nat.lt_succ_iff_lt_or_eq.mp hj with h | h
          · exact hmin j h
          · subst h
            omega
        · obtain ⟨j, hj1, hj2, hj3⟩ := hex
          refine ⟨j, ?_, by omega, hj3⟩
          rcases Nat.eq_or_lt_of_le hj1 with h | h
          · subst h
            omega
          · omega

theorem ceilSqrt_spec (S : ℕ) :
    S ≤ ceilSqrt S * ceilSqrt S ∧ ∀ j < ceilSqrt S, j * j < S := by
  apply ceilSqrtGo_spec
  · intro j hj
    omega
  · refine ⟨S, Nat.zero_le S, by omega, ?_⟩
    rcases Nat.eq_zero_or_pos S with h | h
    · simp [h]
    · exact Nat.le_mul_of_pos_left S h

theorem halfDown_aux (p q c t k : ℕ) (hq : 0 < q)
    (hc1 : 4 * p * q ≤ c * c) (hc2 : ∀ j < c, j * j < 4 * p * q)
    (ht1 : c ≤ q * t) (ht3 : q * t ≤ c + q - 1)
    (hk1 : t ≤ 2 * k + 1) (hk2 : 2 * k ≤ t) :
    ((k : ℕ) : ℤ) = ⌈Real.sqrt ((p : ℝ) / q) - 1 / 2⌉ := by
  have hq' : (0 : ℝ) < q := by exact_mod_cast hq
  have hv : (p : ℝ) / q = ((4 * p * q : ℕ) : ℝ) / (2 * q) ^ 2 := by
    push_cast
    field_simp
    ring
  have hsqrtv : Real.sqrt ((p : ℝ) / q) = Real.sqrt ((4 * p * q : ℕ) : ℝ) / (2 * q) := by
    rw [hv, show (((4 * p * q : ℕ) : ℝ)) / (2 * (q : ℝ)) ^ 2 =
        (Real.sqrt ((4 * p * q : ℕ) : ℝ) / (2 * q)) ^ 2 by
      rw [div_pow, Real.sq_sqrt (by positivity)]]
    exact Real.sqrt_sq (by positivity)
  have hub : Real.sqrt ((p : ℝ) / q) ≤ (k : ℝ) + 1 / 2 := by
    have hnat : 4 * p * q ≤ (q * (2 * k + 1)) * (q * (2 * k + 1)) := by
      calc 4 * p * q ≤ c * c := hc1
        _ ≤ (q * t) * (q * t) := Nat.mul_le_mul ht1 ht1
        _ ≤ (q * (2 * k + 1)) * (q * (2 * k + 1)) :=
            Nat.mul_le_mul (Nat.mul_le_mul_left q hk1) (Nat.mul_le_mul_left q hk1)
    have h1 : ((4 * p * q : ℕ) : ℝ) ≤ ((q * (2 * k + 1) : ℕ) : ℝ) ^ 2 := by
      rw [sq]
      exact_mod_cast hnat
    have h2 : Real.sqrt ((4 * p * q : ℕ) : ℝ) ≤ ((q * (2 * k + 1) : ℕ) : ℝ) := by
      calc Real.sqrt ((4 * p * q : ℕ) : ℝ) ≤
          Real.sqrt (((q * (2 * k + 1) : ℕ) : ℝ) ^ 2) := Real.sqrt_le_sqrt h1
        _ = ((q * (2 * k + 1) : ℕ) : ℝ) := Real.sqrt_sq (by positivity)
    rw [hsqrtv, div_le_iff₀ (by positivity)]
    push_cast at h2 ⊢
    nlinarith [h2]
  by_cases hk0 : k = 0
  · subst hk0
    symm
    rw [Int.ceil_eq_iff]
    constructor
    · push_cast
      have := Real.sqrt_nonneg ((p : ℝ) / q)
      linarith
    · push_cast
      push_cast at hub
      linarith
  · obtain ⟨k0, hkk⟩ : ∃ k0, k = k0 + 1 := ⟨k - 1, by omega⟩
    subst hkk
    have ht2ge : 2 ≤ t := by omega
    have hc_ge : q + 1 ≤ c := by
      have h2q : 2 * q ≤ q * t := by
        calc 2 * q = q * 2 := by ring
          _ ≤ q * t := Nat.mul_le_mul_left q ht2ge
      omega
    have hlow : (q * (2 * k0 + 1)) * (q * (2 * k0 + 1)) < 4 * p * q := by
      have h2 : 2 * k0 + 1 ≤ t - 1 := by omega
      have hqt1 : q * (t - 1) + q = q * t := by
        have ht' : t = (t - 1) + 1 := by omega
        calc q * (t - 1) + q = q * ((t - 1) + 1) := by ring
          _ = q * t := by rw [← ht']
      have h3 : q * (t - 1) ≤ c - 1 := by omega
      have h1 : q * (2 * k0 + 1) ≤ c - 1 :=
        le_trans (Nat.mul_le_mul_left q h2) h3
      calc (q * (2 * k0 + 1)) * (q * (2 * k0 + 1)) ≤ (c - 1) * (c - 1) :=
            Nat.mul_le_mul h1 h1
        _ < 4 * p * q := hc2 (c - 1) (by omega)
    have hlb : ((k0 + 1 : ℕ) : ℝ) - 1 < Real.sqrt ((p : ℝ) / q) - 1 / 2 := by
      rw [hsqrtv]
      have h1 : ((q * (2 * k0 + 1) : ℕ) : ℝ) ^ 2 < ((4 * p * q : ℕ) : ℝ) := by
        rw [sq]
        exact_mod_cast hlow
      have h2 : ((q * (2 * k0 + 1) : ℕ) : ℝ) < Real.sqrt ((4 * p * q : ℕ) : ℝ) := by
        have h3 := Real.sqrt_lt_sqrt (by positivity) h1
        rwa [Real.sqrt_sq (by positivity)] at h3
      have hgoal : (((k0 : ℝ) + 1) - 1 / 2) * (2 * q) < Real.sqrt ((4 * p * q : ℕ) : ℝ) := by
        push_cast at h2 ⊢
        nlinarith [h2]
      have hlb2 : ((k0 : ℝ) + 1) - 1 / 2 < Real.sqrt ((4 * p * q : ℕ) : ℝ) / (2 * q) := by
        rw [lt_div_iff₀ (by positivity)]
        exact hgoal
      push_cast at hlb2 ⊢
      linarith [hlb2]
    symm
    rw [Int.ceil_eq_iff]
    constructor
    · push_cast
      push_cast at hlb
      linarith
    · push_cast
      push_cast at hub
      linarith

theorem sqrtHalfDownFrac_eq (p q : ℕ) (hq : 0 < q) :
    ((sqrtHalfDownFrac p q : ℕ) : ℤ) = ⌈Real.sqrt ((p : ℝ) / q) - 1 / 2⌉ := by
  obtain ⟨hc1, hc2⟩ := ceilSqrt_spec (4 * p * q)
  have hdefk : sqrtHalfDownFrac p q = ((ceilSqrt (4 * p * q) + q - 1) / q) / 2 := rfl
  have hdm := Nat.div_add_mod (ceilSqrt (4 * p * q) + q - 1) q
  have hmod : (ceilSqrt (4 * p * q) + q - 1) % q < q := Nat.mod_lt _ hq
  have hdm2 := Nat.div_add_mod ((ceilSqrt (4 * p * q) + q - 1) / q) 2
  have hmod2 : ((ceilSqrt (4 * p * q) + q - 1) / q) % 2 < 2 := Nat.mod_lt _ (by norm_num)
  exact halfDown_aux p q (ceilSqrt (4 * p * q)) ((ceilSqrt (4 * p * q) + q - 1) / q)
    (sqrtHalfDownFrac p q) hq hc1 hc2 (by omega) (by omega) (by omega) (by omega)

theorem list_sum_map_div (l : List ℚ) (c : ℚ) :
    (l.map (fun x => x / c)).sum = l.sum / c := by
  induction l with
  | nil => simp
  | cons a t ih => simp [ih, add_div]

theorem devSqSumZ_nonneg (values : List ℕ) : 0 ≤ devSqSumZ values := by
  unfold devSqSumZ
  apply List.sum_nonneg
  intro x hx
  rcases List.mem_map.mp hx with ⟨y, _, rfl⟩
  positivity

theorem devSqSum_cast (values : List ℕ) :
    ((devSqSum values : ℕ) : ℚ) = ((devSqSumZ values : ℤ) : ℚ) := by
  unfold devSqSum
  have h := Int.toNat_of_nonneg (devSqSumZ_nonneg values)
  exact_mod_cast congrArg (fun z : ℤ => (z : ℚ)) h

theorem varianceQ_eq (values : List ℕ) (h : values ≠ []) :
    varianceQ values = (devSqSum values : ℚ) / ((values.length : ℚ)) ^ 3 := by
  have hn : values.length ≠ 0 := fun h0 => h (List.length_eq_zero.mp h0)
  have hnq : ((values.length : ℚ)) ≠ 0 := by exact_mod_cast hn
  have hemp : values.isEmpty = false := by
    cases values
    · exact absurd rfl h
    · rfl
  unfold varianceQ
  rw [hemp]
  simp only [Bool.false_eq_true, if_false]
  rw [devSqSum_cast]
  have hz : ((devSqSumZ values : ℤ) : ℚ) =
      (values.map (fun x : ℕ =>
        ((values.length : ℚ) * (x : ℚ) - (values.sum : ℚ)) ^ 2)).sum := by
    have hcast : ∀ (L S x : ℕ), ((((L : ℤ) * (x : ℤ) - (S : ℤ)) ^ 2 : ℤ) : ℚ) =
        ((L : ℚ) * (x : ℚ) - (S : ℚ)) ^ 2 := by
      intro L S x
      push_cast
      ring
    unfold devSqSumZ
    rw [Int.cast_list_sum, List.map_map]
    apply congrArg List.sum
    apply List.map_congr_left
    intro x _
    simp only [Function.comp_apply]
    exact hcast values.length values.sum x
  rw [hz]
  have hpt : (values.map (fun x : ℕ =>
      ((x : ℚ) - (values.sum : ℚ) / values.length) ^ 2)) =
      (values.map (fun x : ℕ =>
        (((values.length : ℚ) * (x : ℚ) - (values.sum : ℚ)) ^ 2) /
          ((values.length : ℚ)) ^ 2)) := by
    apply List.map_congr_left
    intro x _
    field_simp
    ring
  have hsum2 : (values.map (fun x : ℕ =>
      (((values.length : ℚ) * (x : ℚ) - (values.sum : ℚ)) ^ 2) /
        ((values.length : ℚ)) ^ 2)).sum =
      ((values.map (fun x : ℕ =>
        ((values.length : ℚ) * (x : ℚ) - (values.sum : ℚ)) ^ 2)).sum) /
        ((values.length : ℚ)) ^ 2 := by
    rw [← list_sum_map_div, List.map_map]
    apply congrArg List.sum
    apply List.map_congr_left
    intro x _
    simp only [Function.comp_apply]
  rw [hpt, hsum2, div_div,
    show ((values.length : ℚ)) ^ 2 * (values.length : ℚ) = ((values.length : ℚ)) ^ 3 from by ring]

theorem round_hundred_sub (s : ℝ) : round ((100 : ℝ) - s) = 100 - ⌈s - 1 / 2⌉ := by
  rw [round_eq]
  have h : (100 : ℝ) - s + 1 / 2 = (-(s - 1 / 2)) + ((100 : ℤ) : ℝ) := by
    push_cast
    ring
  rw [h, Int.floor_add_int, Int.floor_neg]
  ring

theorem stdDevRoundHalfDown_eq (values : List ℕ) (h : values ≠ []) :
    ((stdDevRoundHalfDown values : ℕ) : ℤ) =
      ⌈Real.sqrt (((varianceQ values : ℚ) : ℝ)) - 1 / 2⌉ := by
  have hn : values.length ≠ 0 := fun h0 => h (List.length_eq_zero.mp h0)
  have hemp : values.isEmpty = false := by
    cases values
    · exact absurd rfl h
    · rfl
  have hq3 : 0 < values.length ^ 3 := by positivity
  have hcast : ((devSqSum values : ℕ) : ℝ) / ((values.length ^ 3 : ℕ) : ℝ) =
      (((varianceQ values : ℚ)) : ℝ) := by
    rw [varianceQ_eq values h]
    push_cast
    ring
  unfold stdDevRoundHalfDown
  rw [hemp]
  simp only [Bool.false_eq_true, if_false]
  rw [sqrtHalfDownFrac_eq _ _ hq3, hcast]

theorem consistencyScoreOf_eq (values : List ℕ) (h : values ≠ []) :
    ((consistencyScoreOf values : ℕ) : ℤ) =
      max 0 (min 100 (round ((100 : ℝ) -
        Real.sqrt (((varianceQ values : ℚ) : ℝ))))) := by
  unfold consistencyScoreOf
  rw [Int.toNat_of_nonneg (le_max_left 0 _)]
  rw [round_hundred_sub, ← stdDevRoundHalfDown_eq values h]

theorem consistencyScoreOf_singleton (x : ℕ) : consistencyScoreOf [x] = 100 := by
  have h0 : devSqSumZ [x] = 0 := by
    unfold devSqSumZ
    simp
  have h1 : stdDevRoundHalfDown [x] = 0 := by
    unfold stdDevRoundHalfDown devSqSum
    rw [h0]
    norm_num [sqrtHalfDownFrac, ceilSqrt, ceilSqrtGo]
  unfold consistencyScoreOf
  rw [h1]
  decide

theorem takeWhile_append_word (p : Char → Bool) :
    ∀ (w : List Char) (x : Char) (t : List Char), (∀ c ∈ w, p c = true) → p x = false →
      (w ++ x :: t).takeWhile p = w ∧ (w ++ x :: t).dropWhile p = x :: t := by
  intro w
  induction w with
  | nil =>
      intro x t _ hx
      simp [List.takeWhile_cons_of_neg, List.dropWhile_cons_of_neg, hx]
  | cons a w ih =>
      intro x t hw hx
      have ha : p a = true := hw a (List.mem_cons_self a w)
      have ihw := ih x t (fun c hc => hw c (List.mem_cons_of_mem a hc)) hx
      constructor
      · rw [List.cons_append, List.takeWhile_cons_of_pos ha, ihw.1]
      · rw [List.cons_append, List.dropWhile_cons_of_pos ha, ihw.2]

theorem convTail_iff (r : List Char) :
    convTail r = true ↔
      (∃ rest, r = ':' :: rest ∧ rest ≠ []) ∨
      (∃ rest, r = '!' :: ':' :: rest ∧ rest ≠ []) := by
  unfold convTail
  split
  · rename_i rest
    simp only [Bool.not_eq_true', List.isEmpty_eq_false]
    constructor
    · intro h
      exact Or.inr ⟨rest, rfl, h⟩
    · rintro (⟨rest2, heq, hne⟩ | ⟨rest2, heq, hne⟩)
      · injection heq with h1 _
        exact absurd h1 (by decide)
      · injection heq with _ h2
        injection h2 with _ h3
        subst h3
        exact hne
  · rename_i x rest
    simp only [Bool.not_eq_true', List.isEmpty_eq_false]
    constructor
    · intro h
      exact Or.inl ⟨rest, rfl, h⟩
    · rintro (⟨rest2, heq, hne⟩ | ⟨rest2, heq, hne⟩)
      · injection heq with _ h2
        subst h2
        exact hne
      · injection heq with h1 _
        exact absurd h1 (by decide)
  · rename_i hn1 hn2
    constructor
    · intro h
      exact absurd h (by decide)
    · rintro (⟨rest2, heq, hne⟩ | ⟨rest2, heq, hne⟩)
      · exact absurd heq (by intro hh; exact hn2 rest2 hh)
      · exact absurd heq (by intro hh; exact hn1 rest2 hh)

theorem scanForClose_iff (l : List Char) :
    scanForClose l = true ↔
      ∃ pre suf, l = pre ++ ')' :: suf ∧ convTail suf = true := by
  induction l with
  | nil =>
      simp only [scanForClose]
      constructor
      · intro h
        exact absurd h (by decide)
      · rintro ⟨pre, suf, heq, -⟩
        exact absurd heq (by simp)
  | cons c rest ih =>
      simp only [scanForClose, Bool.or_eq_true, Bool.and_eq_true, decide_eq_true_eq, ih]
      constructor
      · rintro (⟨hc, ht⟩ | ⟨pre, suf, hrest, ht⟩)
        · subst hc
          exact ⟨[], rest, rfl, ht⟩
        · subst hrest
          exact ⟨c :: pre, suf, rfl, ht⟩
      · rintro ⟨pre, suf, heq, ht⟩
        cases pre with
        | nil =>
            injection heq with h1 h2
            subst h2
            exact Or.inl ⟨h1, ht⟩
        | cons d pre2 =>
            injection heq with h1 h2
            subst h2
            exact Or.inr ⟨pre2, suf, rfl, ht⟩

theorem convMatch_of_isConv (s ty : List Char) (h : IsConvSubjectWith s ty) :
    convMatch s = true ∧ s.takeWhile wordChar ≠ [] ∧
      ty = lowerChars (s.takeWhile wordChar) := by
  obtain ⟨w, opt, rest, hs, hwne, hwc, hrne, hopt, hty⟩ := h
  rcases hopt with hopt | hopt | ⟨m, hmne, hopt | hopt⟩
  · subst hopt
    have hs2 : s = w ++ ':' :: rest := by
      rw [hs]
      simp
    subst hs2
    obtain ⟨htake, hdrop⟩ :=
      takeWhile_append_word wordChar w ':' rest hwc (by decide)
    refine ⟨?_, by rw [htake]; exact hwne, by rw [htake]; exact hty⟩
    simp only [convMatch, htake, hdrop, Bool.and_eq_true, Bool.not_eq_true',
      List.isEmpty_eq_false]
    refine ⟨hwne, ?_⟩
    split
    · rename_i x rest2 heq
      injection heq with h1 _
      exact absurd h1 (by decide)
    · exact (convTail_iff (':' :: rest)).mpr (Or.inl ⟨rest, rfl, hrne⟩)
  · subst hopt
    have hs2 : s = w ++ '!' :: ':' :: rest := by
      rw [hs]
      simp
    subst hs2
    obtain ⟨htake, hdrop⟩ :=
      takeWhile_append_word wordChar w '!' (':' :: rest) hwc (by decide)
    refine ⟨?_, by rw [htake]; exact hwne, by rw [htake]; exact hty⟩
    simp only [convMatch, htake, hdrop, Bool.and_eq_true, Bool.not_eq_true',
      List.isEmpty_eq_false]
    refine ⟨hwne, ?_⟩
    split
    · rename_i x rest2 heq
      injection heq with h1 _
      exact absurd h1 (by decide)
    · exact (convTail_iff ('!' :: ':' :: rest)).mpr (Or.inr ⟨rest, rfl, hrne⟩)
  · subst hopt
    rcases m with - | ⟨x, m2⟩
    · exact absurd rfl hmne
    have hs2 : s = w ++ '(' :: x :: (m2 ++ ')' :: ':' :: rest) := by
      rw [hs]
      simp
    subst hs2
    obtain ⟨htake, hdrop⟩ :=
      takeWhile_append_word wordChar w '(' (x :: (m2 ++ ')' :: ':' :: rest)) hwc (by decide)
    refine ⟨?_, by rw [htake]; exact hwne, by rw [htake]; exact hty⟩
    simp only [convMatch, htake, hdrop, Bool.and_eq_true, Bool.not_eq_true',
      List.isEmpty_eq_false]
    exact ⟨hwne, (scanForClose_iff (m2 ++ ')' :: ':' :: rest)).mpr
      ⟨m2, ':' :: rest, rfl, (convTail_iff (':' :: rest)).mpr (Or.inl ⟨rest, rfl, hrne⟩)⟩⟩
  · subst hopt
    rcases m with - | ⟨x, m2⟩
    · exact absurd rfl hmne
    have hs2 : s = w ++ '(' :: x :: (m2 ++ ')' :: '!' :: ':' :: rest) := by
      rw [hs]
      simp
    subst hs2
    obtain ⟨htake, hdrop⟩ :=
      takeWhile_append_word wordChar w '('
        (x :: (m2 ++ ')' :: '!' :: ':' :: rest)) hwc (by decide)
    refine ⟨?_, by rw [htake]; exact hwne, by rw [htake]; exact hty⟩
    simp only [convMatch, htake, hdrop, Bool.and_eq_true, Bool.not_eq_true',
      List.isEmpty_eq_false]
    exact ⟨hwne, (scanForClose_iff (m2 ++ ')' :: '!' :: ':' :: rest)).mpr
      ⟨m2, '!' :: ':' :: rest, rfl,
        (convTail_iff ('!' :: ':' :: rest)).mpr (Or.inr ⟨rest, rfl, hrne⟩)⟩⟩

theorem isConv_of_convMatch (s : List Char) (h : convMatch s = true) :
    IsConvSubjectWith s (lowerChars (s.takeWhile wordChar)) := by
  have hs : s.takeWhile wordChar ++ s.dropWhile wordChar = s :=
    List.takeWhile_append_dropWhile wordChar s
  have hw : ∀ c ∈ s.takeWhile wordChar, wordChar c = true :=
    fun c hc => List.mem_takeWhile_imp hc
  simp only [convMatch, Bool.and_eq_true, Bool.not_eq_true',
    List.isEmpty_eq_false] at h
  obtain ⟨hne, hm⟩ := h
  split at hm
  · rename_i x rest2 heq
    obtain ⟨pre, suf, hr2, ht⟩ := (scanForClose_iff rest2).mp hm
    rcases (convTail_iff suf).mp ht with ⟨rest, hsuf, hrne⟩ | ⟨rest, hsuf, hrne⟩
    · refine ⟨s.takeWhile wordChar, '(' :: (x :: pre ++ [')']), rest, ?_, hne, hw, hrne,
        Or.inr (Or.inr ⟨x :: pre, List.cons_ne_nil x pre, Or.inl rfl⟩), rfl⟩
      conv_lhs => rw [← hs]
      rw [heq, hr2, hsuf]
      simp
    · refine ⟨s.takeWhile wordChar, '(' :: (x :: pre ++ [')', '!']), rest, ?_, hne, hw, hrne,
        Or.inr (Or.inr ⟨x :: pre, List.cons_ne_nil x pre, Or.inr rfl⟩), rfl⟩
      conv_lhs => rw [← hs]
      rw [heq, hr2, hsuf]
      simp
  · rcases (convTail_iff (s.dropWhile wordChar)).mp hm with
      ⟨rest, hdr, hrne⟩ | ⟨rest, hdr, hrne⟩
    · refine ⟨s.takeWhile wordChar, [], rest, ?_, hne, hw, hrne, Or.inl rfl, rfl⟩
      conv_lhs => rw [← hs]
      rw [hdr]
      simp
    · refine ⟨s.takeWhile wordChar, ['!'], rest, ?_, hne, hw, hrne,
        Or.inr (Or.inl rfl), rfl⟩
      conv_lhs => rw [← hs]
      rw [hdr]
      simp

theorem convMatch_iff (s : List Char) :
    convMatch s = true ↔ ∃ ty, IsConvSubjectWith s ty :=
  ⟨fun h => ⟨lowerChars (s.takeWhile wordChar), isConv_of_convMatch s h⟩,
   fun ⟨ty, h⟩ => (convMatch_of_isConv s ty h).1⟩

end CommitAnalyzer

/-!
Claim theorems.
-/

open CommitAnalyzer in
/-- C1: for every commit, the per-commit overall score equals the exact
rounding of `0.6 * messageQuality.total + 0.4 * sizeScore.total`, with
no other adjustment or rounding drift. -/
theorem claim_C1 (c : Commit) :
    ((calculateCommitScore c).overallScore : ℤ) =
      round ((0.6 : ℚ) * ((analyzeMessageQuality c.message).total : ℚ) +
        (0.4 : ℚ) * ((analyzeCommitSize c.stats.total c.stats.filesChanged).total : ℚ)) := by
  rw [calculateCommitScore_overall_eq]
  exact roundMix_eq_round _ _

open CommitAnalyzer in
/-- C2: all score totals lie in their stated closed integer ranges:
message quality, size and overall per commit, and average and
consistency per contributor (over a commit-score map built from any
commit list) are between 0 and 100. -/
theorem claim_C2 :
    (∀ message : List Char,
      0 ≤ ((analyzeMessageQuality message).total : ℤ) ∧
        ((analyzeMessageQuality message).total : ℤ) ≤ 100) ∧
    (∀ lines files : ℕ,
      0 ≤ ((analyzeCommitSize lines files).total : ℤ) ∧
        ((analyzeCommitSize lines files).total : ℤ) ≤ 100) ∧
    (∀ c : Commit,
      0 ≤ ((calculateCommitScore c).overallScore : ℤ) ∧
        ((calculateCommitScore c).overallScore : ℤ) ≤ 100) ∧
    (∀ (ctr : Contributor) (commits : List Commit),
      (0 ≤ ((calculateContributorScore ctr (scoreMapGet commits)).averageScore : ℤ) ∧
        ((calculateContributorScore ctr (scoreMapGet commits)).averageScore : ℤ) ≤ 100) ∧
      (0 ≤ ((calculateContributorScore ctr (scoreMapGet commits)).consistencyScore : ℤ) ∧
        ((calculateContributorScore ctr (scoreMapGet commits)).consistencyScore : ℤ) ≤ 100)) := by
  refine ⟨fun message => ⟨by positivity, ?_⟩,
    fun lines files => ⟨by positivity, ?_⟩,
    fun c => ⟨by positivity, ?_⟩,
    fun ctr commits => ⟨⟨by positivity, ?_⟩, ⟨by positivity, ?_⟩⟩⟩
  · exact_mod_cast analyzeMessageQuality_total_le message
  · exact_mod_cast analyzeCommitSize_total_le lines files
  · exact_mod_cast calculateCommitScore_overall_le c
  · have h : (calculateContributorScore ctr (scoreMapGet commits)).averageScore =
        (if ((collectScores ctr (scoreMapGet commits)).map
              (fun s => s.overallScore)).isEmpty then 0
         else avgRoundNat ((collectScores ctr (scoreMapGet commits)).map
              (fun s => s.overallScore)).sum
            ((collectScores ctr (scoreMapGet commits)).map
              (fun s => s.overallScore)).length) := rfl
    rw [h]
    split_ifs with he
    · norm_num
    · have hlen : 0 < ((collectScores ctr (scoreMapGet commits)).map
          (fun s => s.overallScore)).length := by
        cases hl : (collectScores ctr (scoreMapGet commits)).map (fun s => s.overallScore) with
        | nil => simp [hl] at he
        | cons a t => simp
      have hsum : ((collectScores ctr (scoreMapGet commits)).map
          (fun s => s.overallScore)).sum ≤
          100 * ((collectScores ctr (scoreMapGet commits)).map
            (fun s => s.overallScore)).length := by
        have hb : ∀ x ∈ (collectScores ctr (scoreMapGet commits)).map
            (fun s => s.overallScore), x ≤ 100 := by
          intro x hx
          rcases List.mem_map.mp hx with ⟨s, hs, rfl⟩
          exact collectScores_overall_le ctr commits s hs
        have := List.sum_le_card_nsmul _ 100 hb
        simpa [smul_eq_mul, Nat.mul_comm] using this
      exact_mod_cast avgRoundNat_le_100 hlen hsum
  · have h : (calculateContributorScore ctr (scoreMapGet commits)).consistencyScore =
        consistencyScoreOf ((collectScores ctr (scoreMapGet commits)).map
          (fun s => s.overallScore)) := rfl
    rw [h]
    exact_mod_cast consistencyScoreOf_le_100 _

/-- C3 counterexample: the two-commit contributor has overall scores
50 and 51, whose population standard deviation is 1/2, so the claimed
unrounded value `clamp(100 - stddev, 0, 100)` is 99.5; the program
stores the rounded consistency score 100 instead. -/
theorem claim_C3_counterexample :
    (CommitAnalyzer.calculateContributorScore Samples.devContributor
        (CommitAnalyzer.scoreMapGet [Samples.addedCommit, Samples.addsCommit])).consistencyScore
      = 100 ∧
    ((100 : ℝ)) ≠
      max 0 (min 100 ((100 : ℝ) - Real.sqrt
        (((CommitAnalyzer.varianceQ Samples.devScores : ℚ) : ℝ)))) := by
  constructor
  · decide
  · have hd : Samples.devScores = [50, 51] := by decide
    have hv : CommitAnalyzer.varianceQ Samples.devScores = 1 / 4 := by
      rw [hd]
      norm_num [CommitAnalyzer.varianceQ, List.sum_cons]
    rw [hv]
    have hs : Real.sqrt (((1 / 4 : ℚ) : ℝ)) = 1 / 2 := by
      rw [show (((1 / 4 : ℚ) : ℝ)) = (1 / 2 : ℝ) ^ 2 by norm_num,
        Real.sqrt_sq (by norm_num)]
    rw [hs]
    norm_num

/-- C3 (amended): for every contributor with at least one scored commit,
the stored consistency score equals
`clamp(round(100 - populationStdDev(overall scores)), 0, 100)` - the
difference is rounded to the nearest integer (half up) before clamping,
not stored exactly; in particular a contributor with exactly one scored
commit has consistency score 100. -/
theorem claim_C3 (ctr : CommitAnalyzer.Contributor)
    (m : String → Option CommitAnalyzer.CommitScore) :
    (CommitAnalyzer.collectScores ctr m ≠ [] →
      (((CommitAnalyzer.calculateContributorScore ctr m).consistencyScore : ℕ) : ℤ) =
        max 0 (min 100 (round ((100 : ℝ) - Real.sqrt
          (((CommitAnalyzer.varianceQ
            ((CommitAnalyzer.collectScores ctr m).map (fun s => s.overallScore)) : ℚ) : ℝ)))))) ∧
    (∀ s, CommitAnalyzer.collectScores ctr m = [s] →
      (CommitAnalyzer.calculateContributorScore ctr m).consistencyScore = 100) := by
  constructor
  · intro h
    have hne : (CommitAnalyzer.collectScores ctr m).map (fun s => s.overallScore) ≠ [] := by
      simpa using h
    show ((CommitAnalyzer.consistencyScoreOf
        ((CommitAnalyzer.collectScores ctr m).map (fun s => s.overallScore)) : ℕ) : ℤ) = _
    exact CommitAnalyzer.consistencyScoreOf_eq _ hne
  · intro s hs
    show CommitAnalyzer.consistencyScoreOf
        ((CommitAnalyzer.collectScores ctr m).map (fun z => z.overallScore)) = 100
    rw [hs]
    exact CommitAnalyzer.consistencyScoreOf_singleton _

/-- C3 witness: the amended claim applied to the two-commit contributor
(scores 50 and 51) and to a one-commit contributor (consistency 100). -/
theorem claim_C3_witness :
    ((((CommitAnalyzer.calculateContributorScore Samples.devContributor
        (CommitAnalyzer.scoreMapGet [Samples.addedCommit, Samples.addsCommit])).consistencyScore
          : ℕ) : ℤ) =
      max 0 (min 100 (round ((100 : ℝ) - Real.sqrt
        (((CommitAnalyzer.varianceQ
          ((CommitAnalyzer.collectScores Samples.devContributor
            (CommitAnalyzer.scoreMapGet [Samples.addedCommit, Samples.addsCommit])).map
              (fun s => s.overallScore)) : ℚ) : ℝ)))))) ∧
    (CommitAnalyzer.calculateContributorScore Samples.soloContributor
      (CommitAnalyzer.scoreMapGet [Samples.addedCommit])).consistencyScore = 100 :=
  ⟨(claim_C3 Samples.devContributor
      (CommitAnalyzer.scoreMapGet [Samples.addedCommit, Samples.addsCommit])).1 (by decide),
   (claim_C3 Samples.soloContributor
      (CommitAnalyzer.scoreMapGet [Samples.addedCommit])).2
      (CommitAnalyzer.calculateCommitScore Samples.addedCommit) (by decide)⟩

/-- C4 counterexample: under `AIAnalyzer.analyzeRepository` a commit
whose sha has no `SemanticAnalysis` entry is returned without any
enhanced score at all — the `enhancedScore` field stays absent
(`undefined`), so no enhanced score with heuristic overall and zeroed AI
fields is produced there, contrary to the claim. -/
theorem claim_C4_counterexample :
    (OpenAIClient.enhanceCommit (fun _ => none) Samples.sampleScored).enhancedScore = none :=
  rfl

/-- C4 (amended): in `calculateEnhancedScores` of scoring.ts a commit
without a `SemanticAnalysis` entry gets an enhanced score whose overall
is exactly the heuristic score and whose AI-derived breakdown fields
(clarity, completeness, technical) are 0 with no `aiScores` object;
under `AIAnalyzer.analyzeRepository` of openai-client.ts, however, such
a commit simply carries no enhanced score (`undefined`). -/
theorem claim_C4 :
    (∀ (sem : String → Option Scoring.SemanticAnalysis) (c : CommitAnalyzer.Commit),
      sem c.sha = none →
        (Scoring.enhanceScoreOne sem c).overall =
            (Scoring.calculateSingleCommitHeuristicScore c : ℤ) ∧
          (Scoring.enhanceScoreOne sem c).breakdown.clarity = 0 ∧
          (Scoring.enhanceScoreOne sem c).breakdown.completeness = 0 ∧
          (Scoring.enhanceScoreOne sem c).breakdown.technical = 0 ∧
          (Scoring.enhanceScoreOne sem c).aiScores = none) ∧
    (∀ (semO : String → Option OpenAIClient.SemanticAnalysisO)
        (d : OpenAIClient.ScoredCommit),
      semO d.sha = none → (OpenAIClient.enhanceCommit semO d).enhancedScore = none) := by
  constructor
  · intro sem c h
    simp [Scoring.enhanceScoreOne, h]
  · intro semO d h
    simp only [OpenAIClient.enhanceCommit, h]

/-- C4 witness: the amended claim applied to a concrete commit and the
empty semantic map. -/
theorem claim_C4_witness :
    (Scoring.enhanceScoreOne (fun _ => none) Samples.addedCommit).overall =
        (Scoring.calculateSingleCommitHeuristicScore Samples.addedCommit : ℤ) ∧
      (Scoring.enhanceScoreOne (fun _ => none) Samples.addedCommit).breakdown.clarity = 0 ∧
      (OpenAIClient.enhanceCommit (fun _ => none) (Samples.scoredItem "w1")).enhancedScore = none := by
  obtain ⟨h1, h2, -, -, -⟩ := claim_C4.1 (fun _ => none) Samples.addedCommit rfl
  exact ⟨h1, h2, claim_C4.2 (fun _ => none) (Samples.scoredItem "w1") rfl⟩

open CommitAnalyzer in
/-- C7: for every commit message, the convention sub-score of the
message quality is exactly 40 when the subject matches the
conventional-commit prefix form with a type in the fixed known set,
exactly 20 when the subject has the prefix form with an unrecognized
type, and exactly 0 when the subject does not match the form at all. -/
theorem claim_C7 (msg : List Char) :
    ((∃ ty, IsConvSubjectWith (firstLineOf msg) ty ∧ ty ∈ conventionalCommitTypes) →
      (analyzeMessageQuality msg).conventionalCommit = 40) ∧
    ((∃ ty, IsConvSubjectWith (firstLineOf msg) ty ∧ ty ∉ conventionalCommitTypes) →
      (analyzeMessageQuality msg).conventionalCommit = 20) ∧
    ((¬ ∃ ty, IsConvSubjectWith (firstLineOf msg) ty) →
      (analyzeMessageQuality msg).conventionalCommit = 0) := by
  have hcc : (analyzeMessageQuality msg).conventionalCommit =
      (conventionalScorePart (firstLineOf msg)).1 := rfl
  refine ⟨?_, ?_, ?_⟩
  · rintro ⟨ty, hconv, hmem⟩
    obtain ⟨hcm, -, hty⟩ := convMatch_of_isConv _ ty hconv
    rw [hcc]
    unfold conventionalScorePart
    rw [if_pos hcm]
    dsimp only
    rw [if_pos (hty ▸ hmem)]
  · rintro ⟨ty, hconv, hmem⟩
    obtain ⟨hcm, -, hty⟩ := convMatch_of_isConv _ ty hconv
    rw [hcc]
    unfold conventionalScorePart
    rw [if_pos hcm]
    dsimp only
    rw [if_neg (hty ▸ hmem)]
  · intro hne
    have hcm : ¬ convMatch (firstLineOf msg) = true :=
      fun hc => hne ((convMatch_iff _).mp hc)
    rw [hcc]
    unfold conventionalScorePart
    rw [if_neg hcm]

open CommitAnalyzer in
/-- C7 witness: `feat: add login` scores 40, `foo: add login` scores 20
and `hello world` scores 0. -/
theorem claim_C7_witness :
    (analyzeMessageQuality "feat: add login".data).conventionalCommit = 40 ∧
    (analyzeMessageQuality "foo: add login".data).conventionalCommit = 20 ∧
    (analyzeMessageQuality "hello world".data).conventionalCommit = 0 :=
  ⟨(claim_C7 "feat: add login".data).1
      ⟨"feat".data, ⟨"feat".data, [], " add login".data, by decide, by decide, by decide,
        by decide, Or.inl rfl, by decide⟩, by decide⟩,
   (claim_C7 "foo: add login".data).2.1
      ⟨"foo".data, ⟨"foo".data, [], " add login".data, by decide, by decide, by decide,
        by decide, Or.inl rfl, by decide⟩, by decide⟩,
   (claim_C7 "hello world".data).2.2
      (fun he =>
        match he with
        | ⟨ty, hconv⟩ => absurd (convMatch_of_isConv _ ty hconv).1 (by decide))⟩

namespace Collaboration

theorem bfCount_spec :
    ∀ (rest : List ℕ) (cum total : ℕ), rest ≠ [] → total ≤ 2 * (cum + rest.sum) →
      1 ≤ bfCount total rest cum ∧ bfCount total rest cum ≤ rest.length ∧
        total ≤ 2 * (cum + (rest.take (bfCount total rest cum)).sum) ∧
        ∀ m, 1 ≤ m → m < bfCount total rest cum →
          ¬ total ≤ 2 * (cum + (rest.take m).sum) := by
  intro rest
  induction rest with
  | nil => intro cum total h; exact absurd rfl h
  | cons c rest' ih =>
    intro cum total _ htot
    by_cases h2 : total ≤ 2 * (cum + c)
    · have hr : bfCount total (c :: rest') cum = 1 := by simp [bfCount, h2]
      rw [hr]
      refine ⟨le_refl 1, by simp, by simpa using h2, ?_⟩
      intro m h1 hm
      omega
    · have hr : bfCount total (c :: rest') cum = 1 + bfCount total rest' (cum + c) := by
        simp [bfCount, h2]
      simp only [List.sum_cons] at htot
      have hrest : rest' ≠ [] := by
        rintro rfl
        simp at htot
        omega
      have htot' : total ≤ 2 * ((cum + c) + rest'.sum) := by omega
      obtain ⟨ih1, ih2, ih3, ih4⟩ := ih (cum + c) total hrest htot'
      rw [hr]
      refine ⟨by omega, by simp; omega, ?_, ?_⟩
      · have ht : (c :: rest').take (1 + bfCount total rest' (cum + c)) =
            c :: rest'.take (bfCount total rest' (cum + c)) := by
          rw [Nat.add_comm]
          rfl
        rw [ht]
        simp only [List.sum_cons]
        omega
      · intro m h1 hm
        match m, h1 with
        | 1, _ =>
            intro hcontra
            simp at hcontra
            omega
        | (m' + 2), _ =>
            intro hcontra
            have ht : (c :: rest').take (m' + 2) = c :: rest'.take (m' + 1) := rfl
            rw [ht] at hcontra
            simp only [List.sum_cons] at hcontra
            exact ih4 (m' + 1) (by omega) (by omega) (by omega)

end Collaboration

open Collaboration in
/-- C8: for every non-empty contributor list, the computed bus factor is
the minimum number of contributors, taken in descending order of commit
count, whose cumulative commit count reaches at least half the total
commit count. -/
theorem claim_C8 (contributors : List BFContributor) (h : contributors ≠ []) :
    calculateBusFactor contributors =
      specBusFactor (contributors.map (fun c => c.totalCommits))
        (fun hm => h (by simpa using hm)) := by
  have hne : contributors.isEmpty = false := by
    cases contributors
    · exact absurd rfl h
    · rfl
  unfold calculateBusFactor
  rw [hne]
  simp only [Bool.false_eq_true, if_false]
  symm
  rw [Collaboration.specBusFactor, Nat.find_eq_iff]
  set counts := contributors.map (fun c => c.totalCommits) with hcounts
  have hperm : (sortedCountsDesc counts).Perm counts := List.perm_insertionSort _ _
  have hsne : sortedCountsDesc counts ≠ [] := by
    intro hnil
    have := hperm.length_eq
    rw [hnil] at this
    simp at this
    cases contributors
    · exact h rfl
    · simp [hcounts] at this
  have hsum : (sortedCountsDesc counts).sum = counts.sum := hperm.sum_eq
  obtain ⟨h1, h2, h3, h4⟩ := bfCount_spec (sortedCountsDesc counts) 0 counts.sum hsne
    (by rw [hsum]; omega)
  constructor
  · exact ⟨h1, by simpa using h3⟩
  · intro m hm hcontra
    rcases hcontra with ⟨hm1, hm2⟩
    exact h4 m hm1 hm (by simpa using hm2)

/-- C8 witness: the bus factor of three contributors with 5, 3 and 2
commits is one contributor (5 already covers half of 10). -/
theorem claim_C8_witness :
    Collaboration.calculateBusFactor [⟨5⟩, ⟨3⟩, ⟨2⟩] =
        Collaboration.specBusFactor [5, 3, 2] (by decide) ∧
      Collaboration.calculateBusFactor [⟨5⟩, ⟨3⟩, ⟨2⟩] = 1 :=
  ⟨claim_C8 [⟨5⟩, ⟨3⟩, ⟨2⟩] (by decide), by decide⟩

namespace Analyzer

theorem mem_insertGrouped_keys {α : Type} (acc : List (String × List α)) (k e : String)
    (c : α) :
    e ∈ (insertGrouped acc k c).map Prod.fst ↔ e = k ∨ e ∈ acc.map Prod.fst := by
  induction acc with
  | nil => simp [insertGrouped]
  | cons hd tl ih =>
    obtain ⟨k', g⟩ := hd
    by_cases hk : k' = k
    · subst hk
      simp [insertGrouped]
    · simp only [insertGrouped, if_neg hk, List.map_cons, List.mem_cons, ih]
      tauto

theorem nodup_insertGrouped_keys {α : Type} (acc : List (String × List α)) (k : String)
    (c : α) (h : (acc.map Prod.fst).Nodup) :
    ((insertGrouped acc k c).map Prod.fst).Nodup := by
  induction acc with
  | nil => simp [insertGrouped]
  | cons hd tl ih =>
    obtain ⟨k', g⟩ := hd
    simp only [List.map_cons, List.nodup_cons] at h
    by_cases hk : k' = k
    · subst hk
      simpa [insertGrouped] using h
    · simp only [insertGrouped, if_neg hk, List.map_cons, List.nodup_cons]
      refine ⟨?_, ih h.2⟩
      rw [mem_insertGrouped_keys]
      push_neg
      exact ⟨fun he => hk he, h.1⟩

theorem groupByKey_keys {α : Type} (key : α → String) :
    ∀ (l : List α) (acc : List (String × List α)), (acc.map Prod.fst).Nodup →
      ((l.foldl (fun acc c => insertGrouped acc (key c) c) acc).map Prod.fst).Nodup ∧
      ∀ e, e ∈ (l.foldl (fun acc c => insertGrouped acc (key c) c) acc).map Prod.fst ↔
        e ∈ acc.map Prod.fst ∨ e ∈ l.map key := by
  intro l
  induction l with
  | nil => intro acc h; exact ⟨h, fun e => by simp⟩
  | cons c t ih =>
    intro acc h
    have hstep := nodup_insertGrouped_keys acc (key c) c h
    obtain ⟨ih1, ih2⟩ := ih (insertGrouped acc (key c) c) hstep
    refine ⟨ih1, fun e => ?_⟩
    rw [List.foldl_cons] at *
    rw [ih2 e, mem_insertGrouped_keys]
    simp only [List.map_cons, List.mem_cons]
    tauto

end Analyzer

/-- C6 counterexample: two commits whose author emails differ only in
letter case produce two distinct groups in `groupCommitsByAuthor`, not
one contributor per distinct lowercased email. -/
theorem claim_C6_counterexample :
    (Analyzer.groupCommitsByAuthor [Samples.upperEmailCommit, Samples.lowerEmailCommit]).map
        Prod.fst = ["Dev@Example.com", "dev@example.com"] ∧
      lowerStr Samples.upperEmailCommit.authorEmail =
        lowerStr Samples.lowerEmailCommit.authorEmail := by
  exact ⟨by decide, by decide⟩

open Analyzer in
/-- C6 (amended): `groupCommitsByAuthor` of analyzer.ts keys groups by
the raw (case-sensitive) author email — exactly one group per distinct
email string — while the contributor grouping inside
`analyzeContributorPatterns` of temporal-analysis.ts keys by the
lowercased email, exactly one group per distinct lowercased email; only
the latter merges commits whose emails differ in letter case. -/
theorem claim_C6 (commits : List ACommit) :
    ((groupCommitsByAuthor commits).map Prod.fst).Nodup ∧
      (∀ e, e ∈ (groupCommitsByAuthor commits).map Prod.fst ↔
        e ∈ commits.map (fun c => c.authorEmail)) ∧
      ((contributorPatternGroups commits).map Prod.fst).Nodup ∧
      (∀ e, e ∈ (contributorPatternGroups commits).map Prod.fst ↔
        e ∈ commits.map (fun c => lowerStr c.authorEmail)) := by
  obtain ⟨h1, h2⟩ := groupByKey_keys (fun c : ACommit => c.authorEmail) commits [] (by simp)
  obtain ⟨h3, h4⟩ :=
    groupByKey_keys (fun c : ACommit => lowerStr c.authorEmail) commits [] (by simp)
  refine ⟨h1, fun e => ?_, h3, fun e => ?_⟩
  · rw [groupCommitsByAuthor, groupByKey, h2 e]
    simp
  · rw [contributorPatternGroups, groupByKey, h4 e]
    simp

/-- C6 witness: the amended claim applied to a concrete one-commit
list. -/
theorem claim_C6_witness :
    ((Analyzer.groupCommitsByAuthor [Samples.lowerEmailCommit]).map Prod.fst).Nodup ∧
      ("dev@example.com" ∈ (Analyzer.contributorPatternGroups
        [Samples.lowerEmailCommit]).map Prod.fst ↔
        "dev@example.com" ∈ [Samples.lowerEmailCommit].map
          (fun c => lowerStr c.authorEmail)) :=
  ⟨(claim_C6 [Samples.lowerEmailCommit]).1,
    (claim_C6 [Samples.lowerEmailCommit]).2.2.2 "dev@example.com"⟩

namespace AIClient

theorem mem_setKV {α : Type} (k s : String) (v a : α) :
    ∀ m : List (String × α), (s, a) ∈ setKV m k v → (s, a) = (k, v) ∨ (s, a) ∈ m := by
  intro m
  induction m with
  | nil => intro h; simpa [setKV] using h
  | cons hd tl ih =>
    intro h
    obtain ⟨k', v'⟩ := hd
    simp only [setKV] at h
    split at h
    · rcases List.mem_cons.mp h with h1 | h1
      · exact Or.inl h1
      · exact Or.inr (List.mem_cons_of_mem _ h1)
    · rcases List.mem_cons.mp h with h1 | h1
      · exact Or.inr (List.mem_cons.mpr (Or.inl h1))
      · rcases ih h1 with h2 | h2
        · exact Or.inl h2
        · exact Or.inr (List.mem_cons_of_mem _ h2)

theorem buildAnalysisMap_mem (commits : List BatchItem) (results : List RawResultA)
    (sha : String) (a : SemanticAnalysisA)
    (h : (sha, a) ∈ buildAnalysisMap commits results) :
    ∃ r ∈ results, a = sanitizeAnalysisA r := by
  have key : ∀ (rs : List RawResultA) (acc : List (String × SemanticAnalysisA)),
      (sha, a) ∈ rs.foldl
        (fun acc r =>
          match matchSha commits r with
          | some s => setKV acc s (sanitizeAnalysisA r)
          | none => acc) acc →
      (sha, a) ∈ acc ∨ ∃ r ∈ rs, a = sanitizeAnalysisA r := by
    intro rs
    induction rs with
    | nil => intro acc hm; exact Or.inl hm
    | cons r t ih =>
      intro acc hm
      rw [List.foldl_cons] at hm
      rcases ih _ hm with hacc | ⟨r', hr', ha'⟩
      · cases hms : matchSha commits r with
        | some s =>
            rw [hms] at hacc
            rcases mem_setKV s sha (sanitizeAnalysisA r) a acc hacc with heq | hin
            · exact Or.inr ⟨r, List.mem_cons_self _ _, congrArg Prod.snd heq⟩
            · exact Or.inl hin
        | none =>
            rw [hms] at hacc
            exact Or.inl hacc
      · exact Or.inr ⟨r', List.mem_cons_of_mem _ hr', ha'⟩
  rcases key results [] h with habs | hgood
  · simp at habs
  · exact hgood

theorem sanitizeAnalysisA_bounds (r : RawResultA) :
    (0 ≤ (sanitizeAnalysisA r).clarity ∧ (sanitizeAnalysisA r).clarity ≤ 100) ∧
      (0 ≤ (sanitizeAnalysisA r).completeness ∧ (sanitizeAnalysisA r).completeness ≤ 100) ∧
      (0 ≤ (sanitizeAnalysisA r).technicalQuality ∧
        (sanitizeAnalysisA r).technicalQuality ≤ 100) := by
  simp only [sanitizeAnalysisA]
  omega

end AIClient

open AIClient in
/-- C10: every `SemanticAnalysis` stored by `analyzeCommitBatch` has
clarity, completeness and technicalQuality clamped into [0, 100] and
arises by sanitising a parsed response element; a numeric field the
provider reports as 0 or omits is stored as the default 50, not as 0
(and the same sanitising holds for `analyzeBatch` of openai-client.ts). -/
theorem claim_C10 :
    (∀ (commits : List BatchItem) (results : List RawResultA) (sha : String)
        (a : SemanticAnalysisA), (sha, a) ∈ buildAnalysisMap commits results →
      (0 ≤ a.clarity ∧ a.clarity ≤ 100 ∧ 0 ≤ a.completeness ∧ a.completeness ≤ 100 ∧
        0 ≤ a.technicalQuality ∧ a.technicalQuality ≤ 100) ∧
      ∃ r ∈ results, a = sanitizeAnalysisA r) ∧
    (∀ r : RawResultA,
      ((r.clarity = none ∨ r.clarity = some 0) → (sanitizeAnalysisA r).clarity = 50) ∧
      ((r.completeness = none ∨ r.completeness = some 0) →
        (sanitizeAnalysisA r).completeness = 50) ∧
      ((r.technicalQuality = none ∨ r.technicalQuality = some 0) →
        (sanitizeAnalysisA r).technicalQuality = 50)) ∧
    (∀ r : OpenAIClient.RawAnalysisO,
      (0 ≤ (OpenAIClient.sanitizeAnalysisO r).clarityScore ∧
        (OpenAIClient.sanitizeAnalysisO r).clarityScore ≤ 100 ∧
        0 ≤ (OpenAIClient.sanitizeAnalysisO r).completenessScore ∧
        (OpenAIClient.sanitizeAnalysisO r).completenessScore ≤ 100 ∧
        0 ≤ (OpenAIClient.sanitizeAnalysisO r).technicalQualityScore ∧
        (OpenAIClient.sanitizeAnalysisO r).technicalQualityScore ≤ 100) ∧
      ((r.clarityScore = none ∨ r.clarityScore = some 0) →
        (OpenAIClient.sanitizeAnalysisO r).clarityScore = 50) ∧
      ((r.completenessScore = none ∨ r.completenessScore = some 0) →
        (OpenAIClient.sanitizeAnalysisO r).completenessScore = 50) ∧
      ((r.technicalQualityScore = none ∨ r.technicalQualityScore = some 0) →
        (OpenAIClient.sanitizeAnalysisO r).technicalQualityScore = 50)) := by
  refine ⟨?_, ?_, ?_⟩
  · intro commits results sha a hmem
    obtain ⟨r, hr, rfl⟩ := buildAnalysisMap_mem commits results sha a hmem
    obtain ⟨⟨b1, b2⟩, ⟨b3, b4⟩, ⟨b5, b6⟩⟩ := sanitizeAnalysisA_bounds r
    exact ⟨⟨b1, b2, b3, b4, b5, b6⟩, r, hr, rfl⟩
  · intro r
    refine ⟨?_, ?_, ?_⟩ <;>
      (rintro (h | h) <;> simp [sanitizeAnalysisA, jsOrZ, h])
  · intro r
    constructor
    · simp only [OpenAIClient.sanitizeAnalysisO]
      omega
    · refine ⟨?_, ?_, ?_⟩ <;>
        (rintro (h | h) <;> simp [OpenAIClient.sanitizeAnalysisO, jsOrZ, h])

namespace CommitAnalyzer

theorem find?_eq_of_perm_unique {α : Type} (p : α → Bool) {l₁ l₂ : List α}
    (h : l₁.Perm l₂) (hu : ∀ a ∈ l₁, ∀ b ∈ l₁, p a → p b → a = b) :
    l₁.find? p = l₂.find? p := by
  cases h₁ : l₁.find? p with
  | none =>
      symm
      rw [List.find?_eq_none] at h₁ ⊢
      intro x hx
      exact h₁ x (h.mem_iff.mpr hx)
  | some a =>
      have hpa : p a := List.find?_some h₁
      have hma : a ∈ l₁ := List.mem_of_find?_eq_some h₁
      cases h₂ : l₂.find? p with
      | none =>
          rw [List.find?_eq_none] at h₂
          exact absurd hpa (by simpa using h₂ a (h.mem_iff.mp hma))
      | some b =>
          have hpb : p b := List.find?_some h₂
          have hmb : b ∈ l₁ := h.mem_iff.mpr (List.mem_of_find?_eq_some h₂)
          exact congrArg some (hu a hma b hmb hpa hpb)

theorem scoreMapGet_perm (commits commits' : List Commit) (h : commits.Perm commits')
    (hn : (commits.map (fun c => c.sha)).Nodup) :
    scoreMapGet commits = scoreMapGet commits' := by
  funext sha
  unfold scoreMapGet
  congr 1
  apply find?_eq_of_perm_unique
  · exact (commits.reverse_perm).trans (h.trans commits'.reverse_perm.symm)
  · intro a ha b hb hpa hpb
    have ha' : a ∈ commits := List.mem_reverse.mp ha
    have hb' : b ∈ commits := List.mem_reverse.mp hb
    have hsha : a.sha = b.sha := by
      have h1 : a.sha = sha := by simpa using hpa
      have h2 : b.sha = sha := by simpa using hpb
      rw [h1, h2]
    exact List.inj_on_of_nodup_map hn ha' hb' hsha

theorem repositoryScoreOf_perm (commits commits' : List Commit)
    (h : commits.Perm commits') : repositoryScoreOf commits = repositoryScoreOf commits' := by
  unfold repositoryScoreOf
  have hlen := h.length_eq
  have hsum : (commits.map (fun c => (calculateCommitScore c).overallScore)).sum =
      (commits'.map (fun c => (calculateCommitScore c).overallScore)).sum :=
    (h.map _).sum_eq
  have hemp : commits.isEmpty = commits'.isEmpty := by
    cases commits <;> cases commits' <;> simp_all
  rw [hemp, hlen, hsum]

end CommitAnalyzer

open CommitAnalyzer in
/-- C9: for every commit list and every permutation of it (with the
shas unique, as the data model requires), the repository-level score and
every contributor aggregate (average, consistency, category, gathered
scores) are identical — aggregation does not depend on the iteration
order of the supplied commits. -/
theorem claim_C9 (commits commits' : List Commit) (ctr : Contributor)
    (hp : commits.Perm commits') (hn : (commits.map (fun c => c.sha)).Nodup) :
    repositoryScoreOf commits = repositoryScoreOf commits' ∧
      calculateContributorScore ctr (scoreMapGet commits) =
        calculateContributorScore ctr (scoreMapGet commits') := by
  refine ⟨repositoryScoreOf_perm _ _ hp, ?_⟩
  rw [scoreMapGet_perm _ _ hp hn]

/-- C9 witness: swapping the two sample commits changes neither the
repository score (51) nor the contributor aggregate. -/
theorem claim_C9_witness :
    (CommitAnalyzer.repositoryScoreOf [Samples.addedCommit, Samples.addsCommit] =
        CommitAnalyzer.repositoryScoreOf [Samples.addsCommit, Samples.addedCommit] ∧
      CommitAnalyzer.calculateContributorScore Samples.devContributor
          (CommitAnalyzer.scoreMapGet [Samples.addedCommit, Samples.addsCommit]) =
        CommitAnalyzer.calculateContributorScore Samples.devContributor
          (CommitAnalyzer.scoreMapGet [Samples.addsCommit, Samples.addedCommit])) ∧
    CommitAnalyzer.repositoryScoreOf [Samples.addedCommit, Samples.addsCommit] = 51 :=
  ⟨claim_C9 [Samples.addedCommit, Samples.addsCommit]
      [Samples.addsCommit, Samples.addedCommit] Samples.devContributor
      (List.Perm.swap Samples.addsCommit Samples.addedCommit [])
      (by decide), by decide⟩

theorem lookupKV_setKV_self {α : Type} (k : String) (v : α) :
    ∀ m : List (String × α), lookupKV (setKV m k v) k = some v := by
  intro m
  induction m with
  | nil => simp [setKV, lookupKV]
  | cons hd tl ih =>
    obtain ⟨k₀, v₀⟩ := hd
    by_cases hk : k₀ = k
    · subst hk
      simp [setKV, lookupKV]
    · simp [setKV, lookupKV, hk, ih]

theorem lookupKV_setKV_ne {α : Type} (k k' : String) (v : α) (h : k' ≠ k) :
    ∀ m : List (String × α), lookupKV (setKV m k v) k' = lookupKV m k' := by
  intro m
  induction m with
  | nil =>
      have hne : ¬ k = k' := fun he => h he.symm
      simp [setKV, lookupKV, hne]
  | cons hd tl ih =>
    obtain ⟨k₀, v₀⟩ := hd
    by_cases hk : k₀ = k
    · subst hk
      have hne : ¬ k₀ = k' := fun he => h he.symm
      simp [setKV, lookupKV, hne]
    · simp [setKV, lookupKV, hk, ih]

namespace AIClient

theorem lookupKV_foldl_set_skip (s : String) :
    ∀ (m : List (String × SemanticAnalysisA)) (acc : List (String × SemanticAnalysisA)),
      (∀ p ∈ m, p.1 ≠ s) →
      lookupKV (m.foldl (fun a kv => setKV a kv.1 kv.2) acc) s = lookupKV acc s := by
  intro m
  induction m with
  | nil => intro acc _; rfl
  | cons kv rest ih =>
    intro acc hkeys
    rw [List.foldl_cons]
    rw [ih _ (fun p hp => hkeys p (List.mem_cons_of_mem _ hp))]
    exact lookupKV_setKV_ne kv.1 s kv.2
      (fun he => hkeys kv (List.mem_cons_self _ _) he.symm) acc

theorem lookupKV_foldl_set_mem (s : String) (a : SemanticAnalysisA) :
    ∀ (m : List (String × SemanticAnalysisA)) (acc : List (String × SemanticAnalysisA)),
      (m.map Prod.fst).Nodup → (s, a) ∈ m →
      lookupKV (m.foldl (fun a kv => setKV a kv.1 kv.2) acc) s = some a := by
  intro m
  induction m with
  | nil => intro acc _ hmem; simp at hmem
  | cons kv rest ih =>
    intro acc hnd hmem
    simp only [List.map_cons, List.nodup_cons] at hnd
    rw [List.foldl_cons]
    rcases List.mem_cons.mp hmem with heq | hmem'
    · subst heq
      have hrest : ∀ p ∈ rest, p.1 ≠ s := by
        intro p hp he
        apply hnd.1
        have := List.mem_map_of_mem Prod.fst hp
        rw [he] at this
        exact this
      rw [lookupKV_foldl_set_skip s rest _ hrest]
      exact lookupKV_setKV_self s a acc
    · exact ih _ hnd.2 hmem'

theorem mergeSettled_lookup_ok (s : String) (a : SemanticAnalysisA)
    (acc m : List (String × SemanticAnalysisA)) (hnd : (m.map Prod.fst).Nodup)
    (hmem : (s, a) ∈ m) : lookupKV (mergeSettled acc (.ok m)) s = some a :=
  lookupKV_foldl_set_mem s a m acc hnd hmem

theorem mergeSettled_lookup_skip (s : String) (acc : List (String × SemanticAnalysisA))
    (res : Except Unit (List (String × SemanticAnalysisA)))
    (hs : ∀ m, res = .ok m → ∀ p ∈ m, p.1 ≠ s) :
    lookupKV (mergeSettled acc res) s = lookupKV acc s := by
  cases res with
  | error e => rfl
  | ok m => exact lookupKV_foldl_set_skip s m acc (hs m rfl)

theorem foldl_merge_keeps (s : String)
    (call : List BatchItem → Except Unit (List (String × SemanticAnalysisA))) :
    ∀ (bs : List (List BatchItem)) (acc : List (String × SemanticAnalysisA)),
      (∀ b ∈ bs, ∀ m, call b = .ok m → ∀ p ∈ m, p.1 ≠ s) →
      lookupKV (bs.foldl (fun acc b => mergeSettled acc (call b)) acc) s = lookupKV acc s := by
  intro bs
  induction bs with
  | nil => intro acc _; rfl
  | cons b rest ih =>
    intro acc hkeys
    rw [List.foldl_cons, ih _ (fun b' hb' => hkeys b' (List.mem_cons_of_mem _ hb'))]
    exact mergeSettled_lookup_skip s acc (call b)
      (fun m hm => hkeys b (List.mem_cons_self _ _) m hm)

theorem foldl_merge_keeps_entry (s : String) (a : SemanticAnalysisA)
    (call : List BatchItem → Except Unit (List (String × SemanticAnalysisA))) :
    ∀ (bs : List (List BatchItem)) (acc : List (String × SemanticAnalysisA)),
      List.Pairwise (fun b1 b2 => ∀ m1 m2, call b1 = .ok m1 → call b2 = .ok m2 →
        ∀ p ∈ m1, ∀ q ∈ m2, p.1 ≠ q.1) bs →
      (∀ b ∈ bs, ∀ m, call b = .ok m → (m.map Prod.fst).Nodup) →
      ∀ b ∈ bs, ∀ m, call b = .ok m → (s, a) ∈ m →
      lookupKV (bs.foldl (fun acc b => mergeSettled acc (call b)) acc) s = some a := by
  intro bs
  induction bs with
  | nil => intro acc _ _ b hb; simp at hb
  | cons b0 rest ih =>
    intro acc hpw hnd b hb m hok hmem
    rw [List.pairwise_cons] at hpw
    rcases List.mem_cons.mp hb with rfl | hbrest
    · rw [List.foldl_cons]
      have hrest : ∀ b' ∈ rest, ∀ m', call b' = .ok m' → ∀ p ∈ m', p.1 ≠ s := by
        intro b' hb' m' hok' p hp
        exact fun he =>
          hpw.1 b' hb' m m' hok hok' (s, a) hmem p hp he.symm
      rw [foldl_merge_keeps s call rest _ hrest, hok]
      exact mergeSettled_lookup_ok s a acc m (hnd b (List.mem_cons_self _ _) m hok) hmem
    · rw [List.foldl_cons]
      exact ih _ hpw.2 (fun b' hb' => hnd b' (List.mem_cons_of_mem _ hb'))
        b hbrest m hok hmem

theorem processGroupsA_flatten
    (call : List BatchItem → Except Unit (List (String × SemanticAnalysisA))) :
    ∀ (n : ℕ) (bs : List (List BatchItem)), bs.length ≤ n →
      ∀ acc, processGroupsA call acc bs =
        bs.foldl (fun acc b => mergeSettled acc (call b)) acc := by
  intro n
  induction n with
  | zero =>
      intro bs hb acc
      have : bs = [] := List.length_eq_zero.mp (Nat.le_zero.mp hb)
      subst this
      rfl
  | succ n ih =>
      intro bs hb acc
      match bs with
      | [] => rfl
      | [b1] => rfl
      | [b1, b2] => rfl
      | b1 :: b2 :: b3 :: rest =>
          have hr : rest.length ≤ n := by
            simp only [List.length_cons] at hb
            omega
          simp only [processGroupsA, List.foldl_cons]
          exact ih rest hr _

end AIClient

namespace OpenAIClient

theorem processGroupsO_error
    (call : List ScoredCommit → Except Unit (List (String × SemanticAnalysisO)))
    (commits : List ScoredCommit) :
    ∀ (n : ℕ) (bs : List (List ScoredCommit)), bs.length ≤ n →
      ∀ acc, (∃ b ∈ bs, call b = .error ()) →
        processGroupsO call commits acc bs = .error () := by
  intro n
  induction n with
  | zero =>
      intro bs hb acc hex
      have : bs = [] := List.length_eq_zero.mp (Nat.le_zero.mp hb)
      subst this
      simp at hex
  | succ n ih =>
      intro bs hb acc hex
      match bs with
      | [] => simp at hex
      | [b1] =>
          obtain ⟨b, hbm, herr⟩ := hex
          simp only [List.mem_singleton] at hbm
          subst hbm
          simp [processGroupsO, herr]
      | [b1, b2] =>
          obtain ⟨b, hbm, herr⟩ := hex
          cases hc1 : call b1 <;> cases hc2 : call b2 <;>
            simp only [List.mem_cons, List.not_mem_nil, or_false] at hbm <;>
            rcases hbm with rfl | rfl <;>
            simp_all [processGroupsO]
      | b1 :: b2 :: b3 :: rest =>
          have hr : rest.length ≤ n := by
            simp only [List.length_cons] at hb
            omega
          obtain ⟨b, hbm, herr⟩ := hex
          cases hc1 : call b1 <;> cases hc2 : call b2 <;> cases hc3 : call b3 <;>
            try (simp [processGroupsO, hc1, hc2, hc3]; done)
          · -- all three fulfilled: the failing batch lies in rest
            simp only [List.mem_cons] at hbm
            rcases hbm with rfl | rfl | rfl | hbrest
            · rw [herr] at hc1; cases hc1
            · rw [herr] at hc2; cases hc2
            · rw [herr] at hc3; cases hc3
            · simp only [processGroupsO, hc1, hc2, hc3]
              exact ih rest hr _ ⟨b, hbrest, herr⟩

end OpenAIClient

/-- C5 counterexample: with 21 commits the second batch holds only the
last commit; an oracle that rejects exactly that batch makes
`processBatches` of openai-client.ts reject the whole run (a fail-fast
`Promise.all` join), while `analyzeCommits` of the batched client keeps
the successful first batch and merely drops the failed one. -/
theorem claim_C5_counterexample :
    OpenAIClient.processBatchesO Samples.flakyCallO Samples.manyScored = .error () ∧
      AIClient.analyzeCommitsModel Samples.flakyCallA Samples.manyItems =
        [("a01", Samples.okAnalysis)] := by
  constructor
  · rfl
  · decide

/-- C5 (amended): the batched client `AIClient.analyzeCommits` joins
with wait-for-all-tolerate-failures: when the ok batch results have
pairwise disjoint key sets (each batch writes a disjoint subset of the
sha-keyed map) and map keys are unique, every entry of every fulfilled
batch survives into the merged result no matter which other batches
fail; but `AIAnalyzer.processBatches` of openai-client.ts joins with
`Promise.all`, so any batch whose call fails (after its retries are
exhausted) rejects the whole run. -/
theorem claim_C5 :
    (∀ (call : List AIClient.BatchItem →
        Except Unit (List (String × AIClient.SemanticAnalysisA)))
        (commits : List AIClient.BatchItem),
      List.Pairwise (fun b1 b2 => ∀ m1 m2, call b1 = .ok m1 → call b2 = .ok m2 →
        ∀ p ∈ m1, ∀ q ∈ m2, p.1 ≠ q.1) (chunksOf 20 commits) →
      (∀ b ∈ chunksOf 20 commits, ∀ m, call b = .ok m → (m.map Prod.fst).Nodup) →
      ∀ b ∈ chunksOf 20 commits, ∀ m, call b = .ok m → ∀ s a, (s, a) ∈ m →
        lookupKV (AIClient.analyzeCommitsModel call commits) s = some a) ∧
    (∀ (call : List OpenAIClient.ScoredCommit →
        Except Unit (List (String × OpenAIClient.SemanticAnalysisO)))
        (commits : List OpenAIClient.ScoredCommit),
      (∃ b ∈ chunksOf 20 commits, call b = .error ()) →
        OpenAIClient.processBatchesO call commits = .error ()) := by
  constructor
  · intro call commits hpw hnd b hb m hok s a hmem
    have hflat := AIClient.processGroupsA_flatten call (chunksOf 20 commits).length
      (chunksOf 20 commits) (le_refl _) []
    unfold AIClient.analyzeCommitsModel
    rw [hflat]
    exact AIClient.foldl_merge_keeps_entry s a call (chunksOf 20 commits) [] hpw hnd
      b hb m hok hmem
  · intro call commits hex
    unfold OpenAIClient.processBatchesO
    exact OpenAIClient.processGroupsO_error call commits (chunksOf 20 commits).length
      (chunksOf 20 commits) (le_refl _) [] hex

/-- C5 witness: a single fulfilled batch keeps its entry, and a single
rejected batch rejects the `Promise.all` join. -/
theorem claim_C5_witness :
    lookupKV (AIClient.analyzeCommitsModel
        (fun _ => .ok [("w1", Samples.okAnalysis)]) [Samples.batchItem "w1"]) "w1" =
      some Samples.okAnalysis ∧
    OpenAIClient.processBatchesO (fun _ => .error ()) [Samples.scoredItem "w1"] =
      .error () := by
  constructor
  · exact claim_C5.1 (fun _ => .ok [("w1", Samples.okAnalysis)]) [Samples.batchItem "w1"]
      (show List.Pairwise _ [[Samples.batchItem "w1"]] from List.pairwise_singleton _ _)
      (by intro b hb m hok
          injection hok with h
          subst h
          decide)
      [Samples.batchItem "w1"] (by decide) [("w1", Samples.okAnalysis)] rfl
      "w1" Samples.okAnalysis (by decide)
  · exact claim_C5.2 (fun _ => .error ()) [Samples.scoredItem "w1"]
      ⟨[Samples.scoredItem "w1"], by decide, rfl⟩

/-- C10 witness: a concrete response element with a zero clarity, an
out-of-range completeness and an omitted technical quality is stored
with clarity 50, completeness 100 and technicalQuality 50. -/
theorem claim_C10_witness :
    (0 ≤ (AIClient.sanitizeAnalysisA Samples.rawZeroClarity).clarity ∧
      (AIClient.sanitizeAnalysisA Samples.rawZeroClarity).clarity ≤ 100 ∧
      0 ≤ (AIClient.sanitizeAnalysisA Samples.rawZeroClarity).completeness ∧
      (AIClient.sanitizeAnalysisA Samples.rawZeroClarity).completeness ≤ 100 ∧
      0 ≤ (AIClient.sanitizeAnalysisA Samples.rawZeroClarity).technicalQuality ∧
      (AIClient.sanitizeAnalysisA Samples.rawZeroClarity).technicalQuality ≤ 100) ∧
    (AIClient.sanitizeAnalysisA Samples.rawZeroClarity).clarity = 50 ∧
    (AIClient.sanitizeAnalysisA Samples.rawZeroClarity).completeness = 100 ∧
    (AIClient.sanitizeAnalysisA Samples.rawZeroClarity).technicalQuality = 50 :=
  ⟨(claim_C10.1 [Samples.batchItem "a1"] [Samples.rawZeroClarity] "a1"
      (AIClient.sanitizeAnalysisA Samples.rawZeroClarity) (by decide)).1,
    (claim_C10.2.1 Samples.rawZeroClarity).1 (Or.inr rfl), by decide,
    (claim_C10.2.1 Samples.rawZeroClarity).2.2 (Or.inl rfl)⟩

end GitScore
